import Mathlib

/-!
# dogestry: the Azure remote (`remote/azure.go`)

A shallow embedding of the Azure blob-storage remote of dogestry and the
properties of its specification that concern it.

Conventions of the embedding:

* a Go `string` is a `List Char` (`Str`); a `[]byte` is a `List Nat`;
* a Go `int` / `int64` is a `Nat`: every integer of the functions embedded
  here is non-negative, and `firstBlockId_fits_int64` shows that for a file
  size in the `int64` range no intermediate value leaves that range, so
  machine arithmetic and `Nat` arithmetic agree;
* a Go `error` is an `Option GoError` (`none` is `nil`);
* calls to the storage service are recorded, in order, in a `List Call`, and
  the service's answers are given by a `BlobStorageClient` record;
* a run-time panic (index out of range, nil dereference) is the `panic`
  outcome of `Outcome`.
-/

namespace Dogestry

/-! ## Strings, errors and outcomes -/

/-- A Go string: a sequence of characters (bytes, for the ASCII text used here). -/
abbrev Str := List Char

/-- A Go `error` value: the sentinel `io.EOF`, or any other error with its message. -/
inductive GoError where
  | EOF : GoError
  | other (text : Str) : GoError
  deriving DecidableEq, Repr

/-- The `Error()` method: the message of an error. -/
def GoError.Error : GoError → Str
  | .EOF => "EOF".toList
  | .other text => text

/-- What a Go function returning `(α, error)` does: it returns a value and a nil error,
returns a value and a non-nil error, or panics. -/
inductive Outcome (α : Type) where
  | ok (val : α) : Outcome α
  | err (val : α) (e : GoError) : Outcome α
  | panic : Outcome α
  deriving DecidableEq, Repr

/-- Go's `strings.HasPrefix`. -/
def HasPrefix (s pfx : Str) : Bool := decide (pfx <+: s)

/-- Go's `strings.HasSuffix`. -/
def HasSuffix (s suffix : Str) : Bool := decide (suffix <:+ s)

/-- Go's `strings.TrimPrefix`: `s` without the leading `pfx`, or `s` itself. -/
def TrimPrefix (s pfx : Str) : Str := if HasPrefix s pfx then s.drop pfx.length else s

/-- Go's `strings.TrimSuffix`: `s` without the trailing `suffix`, or `s` itself. -/
def TrimSuffix (s suffix : Str) : Str :=
  if HasSuffix s suffix then s.take (s.length - suffix.length) else s

/-- Go's `strings.Contains`. -/
def Contains (s substr : Str) : Bool := decide (substr <:+: s)

/-- Byte-wise lexicographic order on strings (Go's `<` on strings). -/
def strLess : Str → Str → Bool
  | [], [] => false
  | [], _ :: _ => true
  | _ :: _, [] => false
  | a :: as, b :: bs => decide (a.toNat < b.toNat) || (decide (a.toNat = b.toNat) && strLess as bs)

/-! ## Block identifiers (`firstBlockId`, and the token built in `putAzureBlocks`) -/

/-- The constant `maxBlockSize`. -/
def maxBlockSize : Nat := 4000000

/-- Go's `strconv.Itoa` on a non-negative integer: its decimal digits. -/
def Itoa (n : Nat) : Str := Nat.toDigits 10 n

/-- Go's `strconv.ParseInt(s, 10, 0)` on a string of decimal digits. -/
def ParseInt (s : Str) : Nat := s.foldl (fun acc c => acc * 10 + (c.toNat - 48)) 0

/-- The function `firstBlockId`, on the size that `f.Stat()` reports: the pair
`(firstId, numBlocks)`. The buffer is `"1"` followed by one `"0"` for each `i` with
`1 ≤ i < len(s)`. -/
def firstBlockId (size : Nat) : Nat × Nat :=
  let numBlocks := size / maxBlockSize + 1
  let s := Itoa (numBlocks * 10)
  let buf := '1' :: List.replicate (s.length - 1) '0'
  (ParseInt buf, numBlocks)

/-- The alphabet of `base64.StdEncoding`. -/
def encodeStd : Str :=
  "ABCDEFGHIJKLMNOPQRSTUVWXYZabcdefghijklmnopqrstuvwxyz0123456789+/".toList

/-- The character of a six-bit value in the standard alphabet. -/
def enc (i : Nat) : Char := encodeStd.getD i '='

/-- Go's `base64.StdEncoding.EncodeToString`: three bytes become four characters; a
remainder of one or two bytes is padded with `=`. -/
def EncodeToString : List Nat → Str
  | b0 :: b1 :: b2 :: rest =>
    let val := b0 * 65536 + b1 * 256 + b2
    enc (val / 262144 % 64) :: enc (val / 4096 % 64) :: enc (val / 64 % 64) :: enc (val % 64)
      :: EncodeToString rest
  | [b0, b1] =>
    let val := b0 * 65536 + b1 * 256
    [enc (val / 262144 % 64), enc (val / 4096 % 64), enc (val / 64 % 64), '=']
  | [b0] =>
    let val := b0 * 65536
    [enc (val / 262144 % 64), enc (val / 4096 % 64), '=', '=']
  | [] => []

/-- The block token of `putAzureBlocks`:
`strId := base64.StdEncoding.EncodeToString([]byte(strconv.Itoa(id)))`. -/
def strId (id : Nat) : Str := EncodeToString ((Itoa id).map Char.toNat)

/-! ## The storage service and the file being uploaded -/

/-- The type `config.BlobSpec`. -/
structure BlobSpec where
  Container : Str
  Path : Str
  PathPresent : Bool
  deriving DecidableEq, Repr

/-- The type `storage.Block`: a block token and its status. -/
structure Block where
  Id : Str
  Status : Str
  deriving DecidableEq, Repr

/-- The constant `storage.BlockStatusUncommitted`. -/
def BlockStatusUncommitted : Str := "Uncommitted".toList

/-- A request sent to the storage service by `putFile`: staging one block (with the number
of bytes of the chunk), creating an empty block blob, committing a block list. -/
inductive Call where
  | PutBlock (container name blockId : Str) (chunkLen : Nat) : Call
  | CreateBlockBlob (container name : Str) : Call
  | PutBlockList (container name : Str) (blocks : List Block) : Call
  deriving DecidableEq, Repr

/-- The answers of the storage service (`storage.BlobStorageClient`) to the requests of this
file: `none` is a nil error. `ListBlobs` answers with the names of the blobs of a container
under a name prefix. -/
structure BlobStorageClient where
  PutBlock : Str → Str → Str → Nat → Option GoError
  CreateBlockBlob : Str → Str → Option GoError
  PutBlockList : Str → Str → List Block → Option GoError
  ListBlobs : Str → Str → Except GoError (List Str)

/-- An open `*os.File`, as `putAzureBlocks` sees it: the size that `f.Stat()` reports, and
the results `(n, e)` of the successive calls `f.Read(arr)`; once these are used up `Read`
returns `(0, io.EOF)`. -/
structure File where
  size : Nat
  reads : List (Nat × Option GoError)

/-- The reads of a regular file of `size` bytes into a buffer of `maxBlockSize` bytes: each
read returns `min(remaining, maxBlockSize)` bytes and a nil error while bytes remain. -/
def regularReads (size : Nat) : List (Nat × Option GoError) :=
  (List.range ((size + maxBlockSize - 1) / maxBlockSize)).map
    (fun k => (min maxBlockSize (size - k * maxBlockSize), none))

/-- A regular file of `size` bytes. -/
def regularFile (size : Nat) : File := ⟨size, regularReads size⟩

/-- How the staging loop of `putAzureBlocks` ends: its condition fails (with the running
identifier, the block slice and the variable `err`), a `PutBlock` fails, or the write
`blocks[id-firstId]` is out of range. -/
inductive LoopExit where
  | done (id : Nat) (blocks : List Block) (err : Option GoError) : LoopExit
  | putErr (e : GoError) : LoopExit
  | indexOutOfRange : LoopExit
  deriving DecidableEq, Repr

/-- The loop of `putAzureBlocks`,
`for n, e := f.Read(arr); n > 0 && (e == nil || e == io.EOF); n, e = f.Read(arr)`,
over the reads that are still to come; `log` is the list of the requests sent so far. -/
def putAzureBlocksLoop (svc : BlobStorageClient) (blob : BlobSpec) (dst : Str) (firstId : Nat) :
    List (Nat × Option GoError) → Nat → List Block → Option GoError → List Call →
    LoopExit × List Call
  | [], id, blocks, err, log => (.done id blocks err, log)
  | (n, e) :: rest, id, blocks, err, log =>
    if n > 0 ∧ (e = none ∨ e = some GoError.EOF) then
      let log1 := log ++ [Call.PutBlock blob.Container dst (strId id) n]
      match svc.PutBlock blob.Container dst (strId id) n with
      | some putErr => (.putErr putErr, log1)
      | none =>
        if id - firstId < blocks.length then
          putAzureBlocksLoop svc blob dst firstId rest (id + 1)
            (blocks.set (id - firstId) ⟨strId id, BlockStatusUncommitted⟩) e log1
        else (.indexOutOfRange, log1)
    else (.done id blocks err, log)

/-- The function `putAzureBlocks`: the blocks it returns (or the error, with a nil slice)
and the requests it sent. -/
def putAzureBlocks (svc : BlobStorageClient) (f : File) (blob : BlobSpec) (dst : Str) :
    Outcome (List Block) × List Call :=
  let firstId := (firstBlockId f.size).1
  let nBlocks := (firstBlockId f.size).2
  let blocks : List Block := List.replicate nBlocks ⟨[], []⟩
  match putAzureBlocksLoop svc blob dst firstId f.reads firstId blocks none [] with
  | (.putErr putErr, log) => (.err [] putErr, log)
  | (.indexOutOfRange, log) => (.panic, log)
  | (.done id blocks err, log) =>
    match err with
    | some (.other text) => (.err [] (.other text), log)
    | _ =>
      if nBlocks = 1 ∧ id = 10 then
        match svc.CreateBlockBlob blob.Container dst with
        | some createErr => (.err [] createErr, log ++ [Call.CreateBlockBlob blob.Container dst])
        | none => (.ok blocks, log ++ [Call.CreateBlockBlob blob.Container dst])
      else (.ok blocks, log)

/-- The receiver `*AzureRemote` with what its methods consult: the blob spec of the
configuration (`remote.config.Azure.Blob`) and the result of `remote.azureBlobClient()`. -/
structure AzureRemote where
  Blob : BlobSpec
  azureBlobClient : Except GoError BlobStorageClient

/-- The type `azKeyDef`; the field `remote` records whether the pointer is set. -/
structure azKeyDef where
  key : Str := []
  sumKey : Str := []
  sum : Str := []
  fullPath : Str := []
  remotePath : Str := []
  remote : Bool := false
  deriving DecidableEq, Repr, Inhabited

/-- The function `putFile`; `opened` is the result of `os.Open(src)`. It returns the error
(`Outcome Unit`) and the requests sent to the service. -/
def putFile (remote : AzureRemote) (opened : Except GoError File) (key : azKeyDef) :
    Outcome Unit × List Call :=
  let blob := remote.Blob
  let dstKey := if blob.PathPresent then blob.Path ++ "/".toList ++ key.key else key.key
  match opened with
  | .error e => (.err () e, [])
  | .ok f =>
    match remote.azureBlobClient with
    | .error e => (.err () e, [])
    | .ok service =>
      match putAzureBlocks service f blob dstKey with
      | (.panic, log) => (.panic, log)
      | (.err _ e, log) => (.err () e, log)
      | (.ok blocks, log) =>
        if blocks.length > 0 then
          match service.PutBlockList blob.Container dstKey blocks with
          | some e => (.err () e, log ++ [Call.PutBlockList blob.Container dstKey blocks])
          | none => (.ok (), log ++ [Call.PutBlockList blob.Container dstKey blocks])
        else (.ok (), log)

/-! ## Key sets (`azKeys`) and the remote listing (`repoKeys`) -/

/-- The type `azKeys`, a Go map from a key to a `*azKeyDef`: the entries in the order in
which they were inserted, at most one for each key. -/
abbrev azKeys := List (Str × azKeyDef)

/-- The map read `k[key]`. -/
def azKeys.find : azKeys → Str → Option azKeyDef
  | [], _ => none
  | (k, v) :: rest, key => if k = key then some v else azKeys.find rest key

/-- The map write `k[key] = v`; it also stands for a write through the pointer stored
under `key`. -/
def azKeys.set : azKeys → Str → azKeyDef → azKeys
  | [], key, v => [(key, v)]
  | (k, w) :: rest, key, v =>
    if k = key then (k, v) :: rest else (k, w) :: azKeys.set rest key v

/-- The method `azKeys.Get`: the entry under `key`, created with `key` and the remote when it
is not there yet; the map after the call comes with it. -/
def azKeys.Get (k : azKeys) (key : Str) : azKeys × azKeyDef :=
  match k.find key with
  | some existing => (k, existing)
  | none => (k.set key { key := key, remote := true }, { key := key, remote := true })

/-- Go's `strings.Trim(s, "/")`: `s` without its leading and trailing slashes. -/
def Trim (s : Str) : Str := (s.dropWhile (fun c => c = '/')).rdropWhile (fun c => c = '/')

/-- The body of the loop of `repoKeys` for one listed blob, `name` being `b.Name`. -/
def repoKeysStep (repoKeys : azKeys) (name : Str) : azKeys :=
  let plainKey := TrimPrefix name "/".toList
  if HasSuffix plainKey ".sum".toList then
    let plainKey1 := TrimSuffix plainKey ".sum".toList
    let r := repoKeys.Get plainKey1
    r.1.set plainKey1 { r.2 with sumKey := name }
  else
    let r := repoKeys.Get plainKey
    r.1.set plainKey { r.2 with remotePath := name }

/-- The function `repoKeys`. -/
def repoKeys (remote : AzureRemote) (pfx : Str) : Outcome azKeys :=
  let pfx1 := Trim pfx
  match remote.azureBlobClient with
  | .error e => .err [] e
  | .ok svc =>
    let blob := remote.Blob
    let pfx2 := if blob.PathPresent then blob.Path ++ "/".toList ++ pfx1 else pfx1
    match svc.ListBlobs blob.Container pfx2 with
    | .error e =>
      .err [] (.other ("getting bucket contents at prefix '".toList ++ pfx2 ++ "': ".toList
        ++ e.Error))
    | .ok blobs => .ok (blobs.foldl repoKeysStep [])

/-- The key under which the loop of `repoKeys` files a listed blob: its name without one
leading slash and, if that ends in `.sum`, without that ending. -/
def targetKey (name : Str) : Str :=
  if HasSuffix (TrimPrefix name "/".toList) ".sum".toList then
    TrimSuffix (TrimPrefix name "/".toList) ".sum".toList
  else TrimPrefix name "/".toList

/-- What the loop of `repoKeys` has recorded in the map `k` for the listed blob `name`, the
blobs `done` being processed: the entry under the target key of `name` holds, in `sumKey`
(when the name without its leading slash ends in `.sum`) or else in `remotePath`, the name
of a processed blob that is `name` up to a leading slash. -/
def recorded (k : azKeys) (done : List Str) (name : Str) : Prop :=
  ∃ e, k.find (targetKey name) = some e ∧
    if HasSuffix (TrimPrefix name "/".toList) ".sum".toList then
      e.sumKey ∈ done ∧ TrimPrefix e.sumKey "/".toList = TrimPrefix name "/".toList
    else e.remotePath ∈ done ∧ TrimPrefix e.remotePath "/".toList = TrimPrefix name "/".toList

/-- The invariant of the loop of `repoKeys`: the keys are distinct, every entry carries the
key under which it is stored, and every processed blob is recorded. -/
def repoKeysInv (k : azKeys) (done : List Str) : Prop :=
  (k.map Prod.fst).Nodup ∧ (∀ q e, k.find q = some e → e.key = q) ∧
    ∀ name ∈ done, recorded k done name

/-- Whether the loop of `repoKeys` takes a listed blob for a checksum record: its name,
without one leading slash, ends in `.sum`. -/
def isSumName (name : Str) : Bool := HasSuffix (TrimPrefix name "/".toList) ".sum".toList

/-- The last blob of a listing that the loop of `repoKeys` files under the key `q`, as a
checksum record when `sumRole` is set and as content otherwise; the empty string when the
listing has no such blob. -/
def lastListed (names : List Str) (q : Str) (sumRole : Bool) : Str :=
  ((names.filter (fun n => decide (targetKey n = q) && (isSumName n == sumRole))).getLast?).getD []

/-- The entry that a listing with a blob filed under the key `q` leaves there: that key, the
last checksum record filed under it as `sumKey` and the last content blob filed under it as
`remotePath`. -/
def listedDef (names : List Str) (q : Str) : azKeyDef :=
  { key := q, sumKey := lastListed names q true, remotePath := lastListed names q false,
    remote := true }

/-- What the listing `names` leaves under the key `q`: nothing when no listed blob is filed
under `q`, and otherwise the entry `listedDef names q`. -/
def listedEntry (names : List Str) (q : Str) : Option azKeyDef :=
  if names.any (fun n => decide (targetKey n = q)) then some (listedDef names q) else none

/-! ## `ImageFullId` -/

/-- Go's `strings.Split(s, "/")`: the segments of `s` between slashes; never empty. -/
def Split : Str → List Str
  | [] => [[]]
  | c :: cs =>
    if c = '/' then [] :: Split cs
    else
      match Split cs with
      | [] => [[c]]
      | p :: ps => (c :: p) :: ps

/-- The error value `ErrNoSuchImage` of the package, of which only the use is among the
sources. -/
def ErrNoSuchImage : GoError := .other "no such image".toList

/-- The image identifier that `ImageFullId` reads off a key: the first segment of the key
once a leading `images/` is removed (`parts[0]`). -/
def listedImageId (key : Str) : Str := (Split (TrimPrefix key "images/".toList)).headD []

/-- The loop of `ImageFullId` over the keys of the map, in the order in which `range`
yields them. -/
def ImageFullIdLoop : List Str → Str → Outcome Str
  | [], _ => .err [] ErrNoSuchImage
  | key :: rest, id =>
    let key1 := TrimPrefix key "images/".toList
    let parts := Split key1
    if HasPrefix (parts.headD []) id then .ok (parts.headD [])
    else ImageFullIdLoop rest id

/-- The method `ImageFullId`. The order in which Go ranges over a map is not specified:
`rangeOrder` gives, for a map, the order of its keys in this run. -/
def ImageFullId (remote : AzureRemote) (rangeOrder : azKeys → List Str) (id : Str) :
    Outcome Str :=
  match repoKeys remote "/images".toList with
  | .panic => .panic
  | .err _ e => .err [] e
  | .ok remoteKeys => ImageFullIdLoop (rangeOrder remoteKeys) id

/-! ## Paths and the local file tree (`localKeys`) -/

/-- Go's `strings.Join(segments, "/")`. -/
def joinSlash : List Str → Str
  | [] => []
  | [s] => s
  | s :: t => s ++ '/' :: joinSlash t

/-- One step of `filepath.Clean` on the next segment of a path; `out` holds the segments
kept so far, the last one first. Empty segments and `.` are dropped; `..` removes the last
kept segment when there is one that is not `..`, is dropped at the root of a rooted path,
and is kept otherwise. -/
def cleanStep (rooted : Bool) (out : List Str) (seg : Str) : List Str :=
  if seg = [] ∨ seg = ".".toList then out
  else if seg = "..".toList then
    match out with
    | [] => if rooted then [] else ["..".toList]
    | top :: below => if top = "..".toList then "..".toList :: top :: below else below
  else seg :: out

/-- Go's `filepath.Clean` (with `/` as separator). -/
def Clean (path : Str) : Str :=
  if path = [] then ".".toList
  else
    let rooted := decide (path.head? = some '/')
    let out := (Split path).foldl (cleanStep rooted) []
    let s := (if rooted then "/".toList else []) ++ joinSlash out.reverse
    if s = [] then ".".toList else s

/-- Go's `filepath.Join` of two elements. -/
def Join (a b : Str) : Str :=
  if a ≠ [] then Clean (a ++ '/' :: b) else if b ≠ [] then Clean b else []

/-- A file tree as `os.Lstat` and `readDirNames` show it: a regular file with its bytes
(`none` when the file cannot be read), or a directory with its entries in the order in which
`readDirNames` returns them. -/
inductive Node where
  | file (name : Str) (content : Option (List Nat)) : Node
  | dir (name : Str) (children : List Node) : Node

/-- The name of a directory entry. -/
def Node.name : Node → Str
  | .file name _ => name
  | .dir name _ => name

/-- The method `IsDir` of `os.FileInfo`. -/
def Node.IsDir : Node → Bool
  | .file _ _ => false
  | .dir _ _ => true

mutual
/-- The function `walk` of `path/filepath`, with the state that the callback threads; the
callbacks of this file never return `SkipDir`. -/
def walk {σ : Type} (walkFn : Str → Node → σ → σ × Option GoError) (path : Str) :
    Node → σ → σ × Option GoError
  | .file name content, st => walkFn path (.file name content) st
  | .dir name children, st =>
    match walkFn path (.dir name children) st with
    | (st1, some e) => (st1, some e)
    | (st1, none) => walkChildren walkFn path children st1
/-- The loop of `walk` over the entries of a directory: `filename := Join(path, name)`. -/
def walkChildren {σ : Type} (walkFn : Str → Node → σ → σ × Option GoError) (path : Str) :
    List Node → σ → σ × Option GoError
  | [], st => (st, none)
  | c :: cs, st =>
    match walk walkFn (Join path c.name) c st with
    | (st1, some e) => (st1, some e)
    | (st1, none) => walkChildren walkFn path cs st1
end

/-- The helper `utils.Sha1File`, of which only the call is among the sources: the digest
`sha1` of the bytes of a regular file that can be read, an error otherwise. -/
def Sha1File (sha1 : List Nat → Str) : Node → Except GoError Str
  | .file _ (some bytes) => .ok (sha1 bytes)
  | .file _ none => .error (.other "permission denied".toList)
  | .dir _ _ => .error (.other "is a directory".toList)

/-- The callback that `localKeys` passes to `filepath.Walk`. -/
def localKeysWalkFn (sha1 : List Nat → Str) (root : Str) (path : Str) (info : Node)
    (localKeys : azKeys) : azKeys × Option GoError :=
  if info.IsDir then (localKeys, none)
  else
    match Sha1File sha1 info with
    | .error e => (localKeys, some e)
    | .ok sum =>
      let key := TrimPrefix path root
      (localKeys.set key { key := key, sum := sum, fullPath := path }, none)

/-- The method `localKeys`. `lstat` is the file tree that `os.Lstat(root)` finds (`none`
when there is none: `Walk` then calls the callback with a nil `info`, which the callback
dereferences). An empty `root` makes `root[len(root)-1]` panic. -/
def localKeys (sha1 : List Nat → Str) (lstat : Option Node) (root : Str) : Outcome azKeys :=
  match root.getLast? with
  | none => .panic
  | some last =>
    let root1 := if last ≠ '/' then root ++ "/".toList else root
    match lstat with
    | none => .panic
    | some info =>
      match walk (localKeysWalkFn sha1 root1) root1 info [] with
      | (keys, some e) => .err keys e
      | (keys, none) => .ok keys

/-! ## `Push` -/

/-- The type `azPutFileTuple`. -/
structure azPutFileTuple where
  Key : Str
  KeyDef : azKeyDef
  deriving DecidableEq, Repr

/-- The function `makeAzFilesChan`: the tuples it puts on the channel before closing it. -/
def makeAzFilesChan (keysToPush : azKeys) : List azPutFileTuple :=
  keysToPush.map (fun kv => ⟨kv.1, kv.2⟩)

/-- The local type `putFileResult` of `Push`. -/
structure putFileResult where
  host : Str := []
  err : Option GoError := none
  deriving DecidableEq, Repr

/-- What a worker of `Push` sends on `putFileErrChan` for one tuple of the queue, given the
error that `putFile` returned for it. -/
def workerResult (key : Str) (putFileErr : Option GoError) : putFileResult :=
  match putFileErr with
  | none => {}
  | some e =>
    if e ≠ GoError.EOF ∧ ¬ Contains e.Error "EOF".toList then { host := key, err := some e }
    else {}

/-- The receiving loop of `Push`, over the tuples in the order in which their results reach
it: for each, the worker that took the tuple has run `putFile` on it (`osOpen` is
`os.Open`) and sent its result. A panic of that `putFile` ends the program. When fewer
results than `n` arrive the program stops with all goroutines asleep. -/
def PushReceive (remote : AzureRemote) (osOpen : Str → Except GoError File) :
    Nat → List azPutFileTuple → Outcome Unit
  | 0, _ => .ok ()
  | _ + 1, [] => .panic
  | n + 1, t :: rest =>
    match (putFile remote (osOpen t.KeyDef.fullPath) t.KeyDef).1 with
    | .panic => .panic
    | .ok _ =>
      match (workerResult t.Key none).err with
      | some e => .err () (.other ("Error when uploading to Azure: ".toList ++ e.Error))
      | none => PushReceive remote osOpen n rest
    | .err _ putFileErr =>
      match (workerResult t.Key (some putFileErr)).err with
      | some e => .err () (.other ("Error when uploading to Azure: ".toList ++ e.Error))
      | none => PushReceive remote osOpen n rest

/-- The method `Push`: its result, and the tuples that it put on `putFilesChan` (the upload
set). `arrival` is the scheduling of the run: the order in which the results of the queued
tuples reach the receiving loop. -/
def Push (remote : AzureRemote) (sha1 : List Nat → Str) (lstat : Option Node)
    (osOpen : Str → Except GoError File)
    (arrival : List azPutFileTuple → List azPutFileTuple) (imageRoot : Str) :
    Outcome Unit × List azPutFileTuple :=
  match localKeys sha1 lstat imageRoot with
  | .panic => (.panic, [])
  | .err _ e => (.err () (.other ("error calculating keys to push: ".toList ++ e.Error)), [])
  | .ok keysToPush =>
    if keysToPush.length = 0 then (.ok (), [])
    else
      let putFilesChan := makeAzFilesChan keysToPush
      (PushReceive remote osOpen keysToPush.length (arrival putFilesChan), putFilesChan)

/-! ## Concrete inputs used in the examples -/

/-- A request is a staged block that the service accepted. -/
def stagedOk (svc : BlobStorageClient) (call : Call) : Prop :=
  ∃ c d t n, call = Call.PutBlock c d t n ∧ svc.PutBlock c d t n = none

/-- A service that accepts every request and lists the blobs `names`. -/
def serviceListing (names : List Str) : BlobStorageClient :=
  ⟨fun _ _ _ _ => none, fun _ _ => none, fun _ _ _ => none, fun _ _ => .ok names⟩

/-- A service that refuses to stage the block with token `t`, with the message `text`, and
accepts every other request. -/
def serviceRefusing (t text : Str) : BlobStorageClient :=
  ⟨fun _ _ blockId _ => if blockId = t then some (.other text) else none, fun _ _ => none,
    fun _ _ _ => none, fun _ _ => .ok []⟩

/-- The entries of the directory of the test `TestLocalKeys`: `dir/file2` and `file1`. -/
def testChildren : List Node :=
  [.dir "dir".toList [.file "file2".toList (some ("hello mars".toList.map Char.toNat))],
    .file "file1".toList (some ("hello world".toList.map Char.toNat))]

/-- The file tree of the test `TestLocalKeys`. -/
def testTree : Node := .dir "dogestry-test".toList testChildren

/-- A remote without sub-path whose service accepts every request and lists `names`. -/
def remoteListing (names : List Str) : AzureRemote :=
  ⟨⟨"c".toList, [], false⟩, .ok (serviceListing names)⟩

/-- The SHA-1 digests of the two file contents of `TestLocalKeys`, as the test expects
them; the empty string for any other content. -/
def testSha1 (bytes : List Nat) : Str :=
  if bytes = "hello world".toList.map Char.toNat then
    "2aae6c35c94fcfb415dbe95f408b9ce91ee846ed".toList
  else if bytes = "hello mars".toList.map Char.toNat then
    "dd6944c43fabd03cf643fe0daf625759dbdea808".toList
  else []

/-- The result of `os.Open` in the examples: every path opens as a regular file of 11
bytes. -/
def openSmall (_ : Str) : Except GoError File := .ok (regularFile 11)

/-- A transfer that `Push` counts as done: `putFile` returned nil, or an error that is
`io.EOF` or whose message contains `EOF`. -/
def countedAsDone (remote : AzureRemote) (osOpen : Str → Except GoError File)
    (t : azPutFileTuple) : Prop :=
  (putFile remote (osOpen t.KeyDef.fullPath) t.KeyDef).1 = .ok () ∨
    ∃ e, (putFile remote (osOpen t.KeyDef.fullPath) t.KeyDef).1 = .err () e ∧
      (e = GoError.EOF ∨ Contains e.Error "EOF".toList = true)

/-- The key set that `repoKeys` builds from the listing `images/abc1/json`,
`images/abd2/json`. -/
def abcKeys : azKeys :=
  [("images/abc1/json".toList,
      { key := "images/abc1/json".toList, remotePath := "images/abc1/json".toList,
        remote := true }),
    ("images/abd2/json".toList,
      { key := "images/abd2/json".toList, remotePath := "images/abd2/json".toList,
        remote := true })]

/-- The key set of the tree of `TestLocalKeys` under the root `/tmp/x`. -/
def testKeys : azKeys :=
  [("dir/file2".toList,
      { key := "dir/file2".toList, sum := "dd6944c43fabd03cf643fe0daf625759dbdea808".toList,
        fullPath := "/tmp/x/dir/file2".toList }),
    ("file1".toList,
      { key := "file1".toList, sum := "2aae6c35c94fcfb415dbe95f408b9ce91ee846ed".toList,
        fullPath := "/tmp/x/file1".toList })]

/-! ## The vocabulary of the statement about `localKeys` -/

/-- A plain path segment: not empty, without a slash, and neither `.` nor `..`. -/
def plainName (n : Str) : Prop := n ≠ [] ∧ '/' ∉ n ∧ n ≠ ".".toList ∧ n ≠ "..".toList

mutual
/-- A readable file tree: below every directory the entries have plain names, no two with
the same name, and every regular file can be read. -/
def Node.readable : Node → Prop
  | .file _ content => content.isSome = true
  | .dir _ children => readableList children
/-- The entries of a directory of a readable file tree. -/
def readableList : List Node → Prop
  | [] => True
  | c :: cs => plainName c.name ∧ c.name ∉ cs.map Node.name ∧ c.readable ∧ readableList cs
end

mutual
/-- The regular files of a tree, in the order of the walk: for each its path from the
directory that holds the node, as the list of its segments, and its bytes. -/
def Node.files : Node → List (List Str × List Nat)
  | .file name content => [([name], content.getD [])]
  | .dir name children => (filesOfList children).map (fun f => (name :: f.1, f.2))
/-- The regular files below the entries of a directory. -/
def filesOfList : List Node → List (List Str × List Nat)
  | [] => []
  | c :: cs => c.files ++ filesOfList cs
end

/-- A root path in cleaned form: the plain segments `comps`, after a slash when the path is
absolute, and followed by a slash when `slash` is set. -/
def cleanRoot (abs : Bool) (comps : List Str) (slash : Bool) : Str :=
  (if abs then '/' :: joinSlash comps else joinSlash comps) ++ (if slash then "/".toList else [])

/-- The segments of a cleaned root: an empty first segment stands for the leading slash of
an absolute path. -/
def rootSegs (abs : Bool) (comps : List Str) : List Str := if abs then [] :: comps else comps

/-- The path of the entry reached from a cleaned root through the segments `rel`. -/
def pathAt (abs : Bool) (comps rel : List Str) : Str := joinSlash (rootSegs abs comps ++ rel)

/-- The entry that the walk of `localKeys` writes for the regular file reached through the
segments `f.1`, with bytes `f.2`. -/
def walkEntry (sha1 : List Nat → Str) (abs : Bool) (comps : List Str)
    (f : List Str × List Nat) : Str × azKeyDef :=
  (joinSlash f.1, { key := joinSlash f.1, sum := sha1 f.2, fullPath := pathAt abs comps f.1 })

/-- Writing a list of entries into a map, one after the other. -/
def azKeys.setAll (k : azKeys) (entries : List (Str × azKeyDef)) : azKeys :=
  entries.foldl (fun m e => m.set e.1 e.2) k

/-- The entry that `localKeys` is to hold for a regular file: the key is the path of the
file relative to the root, the sum is the digest of its bytes, and the full path is the root
joined with the key. -/
def localEntry (sha1 : List Nat → Str) (root : Str) (f : List Str × List Nat) :
    Str × azKeyDef :=
  (joinSlash f.1,
    { key := joinSlash f.1, sum := sha1 f.2, fullPath := Join root (joinSlash f.1) })

/-- The key set that `localKeys` returns for the tree of `TestLocalKeys` under the root
`./work`. -/
def workKeys : azKeys :=
  [("work/dir/file2".toList,
      { key := "work/dir/file2".toList,
        sum := "dd6944c43fabd03cf643fe0daf625759dbdea808".toList,
        fullPath := "work/dir/file2".toList }),
    ("work/file1".toList,
      { key := "work/file1".toList, sum := "2aae6c35c94fcfb415dbe95f408b9ce91ee846ed".toList,
        fullPath := "work/file1".toList })]

/-- The key set that `localKeys` returns for the tree of `TestLocalKeys` under the root
`/tmp/x//`. -/
def slashKeys : azKeys :=
  [("/tmp/x/dir/file2".toList,
      { key := "/tmp/x/dir/file2".toList,
        sum := "dd6944c43fabd03cf643fe0daf625759dbdea808".toList,
        fullPath := "/tmp/x/dir/file2".toList }),
    ("/tmp/x/file1".toList,
      { key := "/tmp/x/file1".toList, sum := "2aae6c35c94fcfb415dbe95f408b9ce91ee846ed".toList,
        fullPath := "/tmp/x/file1".toList })]

/-! ## Pulling an image (`PullImageId`, `getFiles`, `getFile`) -/

/-- Go's `filepath.Dir`: the cleaned path up to the last slash. -/
def Dir (path : Str) : Str := Clean (path.rdropWhile (fun c => c ≠ '/'))

/-- What `getFile` meets on its way: the answer of the service to `GetBlob` (the bytes of the
blob, or an error) and the answers of the local file system to `os.MkdirAll`, `os.Create`
and `io.Copy`; `none` is a nil error. -/
structure PullIO where
  GetBlob : Str → Str → Except GoError (List Nat)
  MkdirAll : Str → Option GoError
  Create : Str → Option GoError
  Copy : Str → List Nat → Option GoError

/-- A step of a download: the blob requested from the service, the directory made, the local
file created, and the bytes copied into the local file. -/
inductive PullCall where
  | GetBlob (container name : Str) : PullCall
  | MkdirAll (path : Str) : PullCall
  | Create (path : Str) : PullCall
  | Copy (path : Str) (content : List Nat) : PullCall
  deriving DecidableEq, Repr

/-- The function `getFile`: its error and the steps it made. The container is read through
`key.remote`, a nil pointer for a key that `repoKeys` did not make. -/
def getFile (remote : AzureRemote) (io : PullIO) (dst : Str) (key : azKeyDef) :
    Outcome Unit × List PullCall :=
  match remote.azureBlobClient with
  | .error e => (.err () e, [])
  | .ok _ =>
    if key.remote = false then (.panic, [])
    else
      let log1 := [PullCall.GetBlob remote.Blob.Container key.remotePath]
      match io.GetBlob remote.Blob.Container key.remotePath with
      | .error e => (.err () e, log1)
      | .ok rdr =>
        let log2 := log1 ++ [PullCall.MkdirAll (Dir dst)]
        match io.MkdirAll (Dir dst) with
        | some e => (.err () e, log2)
        | none =>
          let log3 := log2 ++ [PullCall.Create dst]
          match io.Create dst with
          | some e => (.err () e, log3)
          | none =>
            let log4 := log3 ++ [PullCall.Copy dst rdr]
            match io.Copy dst rdr with
            | some e => (.err () e, log4)
            | none => (.ok (), log4)

/-- The loop of `getFiles` over the keys still to come, in the order in which `range` yields
them; `errMap` holds the errors met so far (only whether it is empty is used) and `log` the
steps made so far. The result is `none` when a `getFile` panics. -/
def getFilesLoop (remote : AzureRemote) (io : PullIO) (dst rootKey : Str) :
    List azKeyDef → List (Str × GoError) → List PullCall →
    Option (List (Str × GoError)) × List PullCall
  | [], errMap, log => (some errMap, log)
  | key :: rest, errMap, log =>
    let relKey := TrimPrefix key.key rootKey
    let relKey1 := TrimPrefix relKey "/".toList
    match getFile remote io (Join dst relKey1) key with
    | (.panic, l) => (none, log ++ l)
    | (.ok _, l) => getFilesLoop remote io dst rootKey rest errMap (log ++ l)
    | (.err _ e, l) => getFilesLoop remote io dst rootKey rest (errMap ++ [(key.key, e)]) (log ++ l)

/-- The function `getFiles`, on the keys of `imageKeys` in the order in which `range` yields
them: its error and the steps made. -/
def getFiles (remote : AzureRemote) (io : PullIO) (dst rootKey : Str)
    (imageKeys : List azKeyDef) : Outcome Unit × List PullCall :=
  let blob := remote.Blob
  let dst1 := if blob.PathPresent then blob.Path ++ "/".toList ++ dst else dst
  match getFilesLoop remote io dst1 rootKey imageKeys [] [] with
  | (none, log) => (.panic, log)
  | (some [], log) => (.ok (), log)
  | (some (_ :: _), log) => (.err () (.other "error downloading files from S3".toList), log)

/-- The method `PullImageId`. The order in which Go ranges over a map is not specified:
`rangeOrder` gives, for a map, the order of its entries in this run. -/
def PullImageId (remote : AzureRemote) (io : PullIO) (rangeOrder : azKeys → List azKeyDef)
    (id dst : Str) : Outcome Unit × List PullCall :=
  let rootKey := "images/".toList ++ id
  match repoKeys remote ("/".toList ++ rootKey) with
  | .panic => (.panic, [])
  | .err _ e => (.err () e, [])
  | .ok imageKeys => getFiles remote io dst rootKey (rangeOrder imageKeys)

/-- A service and a local file system that accept every step of a download; every blob has
the three bytes `1`, `2`, `3`. -/
def pullAll : PullIO :=
  ⟨fun _ _ => .ok [49, 50, 51], fun _ => none, fun _ => none, fun _ _ => none⟩

/-- A remote with the sub-path `sub` whose service accepts every request and lists
`names`. -/
def remoteSubPath (names : List Str) : AzureRemote :=
  ⟨⟨"c".toList, "sub".toList, true⟩, .ok (serviceListing names)⟩

/-- Whether a request stages a block. -/
def Call.isPutBlock : Call → Bool
  | .PutBlock _ _ _ _ => true
  | _ => false

/-- The listing of the example of the specification: a blob and its checksum record. -/
def rubyListing : List Str :=
  ["repositories/ruby/latest".toList, "repositories/ruby/latest.sum".toList]

/-- The key of the example of the doc comment of `getFiles`, as `repoKeys` makes it. -/
def testKey : azKeyDef :=
  { key := "images/456/json".toList, remotePath := "images/456/json".toList, remote := true }


/-! # Theorems -/

/-! ## Decimal digits -/

/-- The digit loop of `Nat.toDigits` produces exactly `k + 1` digits for a number with
`10 ^ k ≤ n < 10 ^ (k + 1)` (or `n < 10`, when `k = 0`). -/
theorem toDigitsCore_length_eq (fuel : Nat) : ∀ (n k : Nat) (acc : List Char), n < fuel →
    n < 10 ^ (k + 1) → (k = 0 ∨ 10 ^ k ≤ n) →
    (Nat.toDigitsCore 10 fuel n acc).length = k + 1 + acc.length := by
  induction fuel with
  | zero => intro n k acc h; omega
  | succ fuel ih =>
    intro n k acc hf hlt hge
    rw [Nat.toDigitsCore]
    by_cases h10 : n / 10 = 0
    · simp only [h10, if_true, List.length_cons]
      have hn : n < 10 := by omega
      have hk : k = 0 := by
        rcases hge with h | h
        · exact h
        · by_contra hk0
          have : 10 ^ 1 ≤ 10 ^ k := Nat.pow_le_pow_right (by norm_num) (by omega)
          omega
      omega
    · simp only [h10, if_false]
      have hn : 10 ≤ n := by omega
      obtain ⟨k1, rfl⟩ : ∃ k1, k = k1 + 1 := by
        cases k with
        | zero => simp at hlt; omega
        | succ k1 => exact ⟨k1, rfl⟩
      have h1 : n / 10 < 10 ^ (k1 + 1) := by
        rw [Nat.div_lt_iff_lt_mul (by norm_num)]
        rw [pow_succ] at hlt
        exact hlt
      have h2 : 10 ^ k1 ≤ n / 10 := by
        rcases hge with h | h
        · omega
        · rw [Nat.le_div_iff_mul_le (by norm_num)]
          rw [pow_succ] at h
          exact h
      rw [ih (n / 10) k1 _ (by omega) h1 (Or.inr h2)]
      simp only [List.length_cons]
      omega

/-- The number of digits `Itoa` writes. -/
theorem Itoa_length (n k : Nat) (hlt : n < 10 ^ (k + 1)) (hge : k = 0 ∨ 10 ^ k ≤ n) :
    (Itoa n).length = k + 1 := by
  unfold Itoa Nat.toDigits
  rw [toDigitsCore_length_eq (n + 1) n k [] (by omega) hlt hge]
  simp

/-- Parsing `1` followed by `k` zeros gives `10 ^ k`. -/
theorem ParseInt_one_zeros (k : Nat) : ParseInt ('1' :: List.replicate k '0') = 10 ^ k := by
  unfold ParseInt
  have h : ∀ (k a : Nat), (List.replicate k '0').foldl (fun acc c => acc * 10 + (c.toNat - 48)) a
      = a * 10 ^ k := by
    intro k
    induction k with
    | zero => intro a; simp
    | succ k ih =>
      intro a
      rw [List.replicate_succ, List.foldl_cons, ih]
      have : ('0' : Char).toNat - 48 = 0 := by decide
      rw [this, pow_succ]
      ring
  rw [List.foldl_cons, h]
  have : (0 * 10 + (('1' : Char).toNat - 48)) = 1 := by decide
  rw [this, one_mul]

/-- Every number lies in one decade `[10 ^ k, 10 ^ (k + 1))`, zero counting with the
one-digit numbers. -/
theorem exists_digit_index (n : Nat) : ∃ k, n < 10 ^ (k + 1) ∧ (k = 0 ∨ 10 ^ k ≤ n) := by
  by_cases h0 : n = 0
  · exact ⟨0, by subst h0; norm_num, Or.inl rfl⟩
  · exact ⟨Nat.log 10 n, Nat.lt_pow_succ_log_self (by norm_num) n,
      Or.inr (Nat.pow_log_le_self 10 h0)⟩

/-! ## `firstBlockId` -/

/-- What `firstBlockId` computes: `numBlocks = size / 4000000 + 1` and
`firstId = 10 ^ (d + 1)`, where `d + 1` is the number of digits of `numBlocks`. -/
theorem firstBlockId_spec (size : Nat) :
    ∃ d, (firstBlockId size).1 = 10 ^ (d + 1) ∧ (firstBlockId size).2 = size / maxBlockSize + 1 ∧
      10 ^ d ≤ (firstBlockId size).2 ∧ (firstBlockId size).2 < 10 ^ (d + 1) := by
  obtain ⟨k, hlt, hge⟩ := exists_digit_index ((size / maxBlockSize + 1) * 10)
  have hk : k ≠ 0 := by
    intro h; subst h; simp at hlt
  obtain ⟨d, rfl⟩ : ∃ d, k = d + 1 := ⟨k - 1, by omega⟩
  have hge1 : 10 ^ (d + 1) ≤ (size / maxBlockSize + 1) * 10 := by
    rcases hge with h | h
    · omega
    · exact h
  refine ⟨d, ?_, rfl, ?_, ?_⟩
  · simp only [firstBlockId]
    rw [Itoa_length _ (d + 1) hlt (Or.inr hge1), ParseInt_one_zeros]
    simp
  · simp only [firstBlockId]
    rw [pow_succ] at hge1
    omega
  · simp only [firstBlockId]
    rw [pow_succ] at hlt
    omega

/-- For a file size in the `int64` range, the block count, ten times the block count, the
first identifier and the last identifier of the range all stay in the `int64` range: the
integer arithmetic of `firstBlockId` and of the identifier counter cannot overflow. -/
theorem firstBlockId_fits_int64 (size : Nat) (hsize : size < 2 ^ 63) :
    (firstBlockId size).2 * 10 < 2 ^ 63 ∧
      (firstBlockId size).1 + (firstBlockId size).2 < 2 ^ 63 := by
  obtain ⟨d, h1, h2, h3, _⟩ := firstBlockId_spec size
  have hnb : (firstBlockId size).2 ≤ 2 ^ 63 / 4000000 + 1 := by
    rw [h2]
    have : size / maxBlockSize ≤ 2 ^ 63 / 4000000 := by
      unfold maxBlockSize
      exact Nat.div_le_div_right (le_of_lt hsize)
    omega
  have hnb2 : (firstBlockId size).2 ≤ 2305843009214 := by
    have : 2 ^ 63 / 4000000 + 1 = 2305843009214 := by norm_num
    omega
  have hfirst : (firstBlockId size).1 ≤ 10 * (firstBlockId size).2 := by
    rw [h1, pow_succ]
    omega
  have h63 : (2 : Nat) ^ 63 = 9223372036854775808 := by norm_num
  omega

/-- Every identifier of the range that `firstBlockId` opens has as many digits as the
first one. -/
theorem firstBlockId_width (size i : Nat)
    (hlo : (firstBlockId size).1 ≤ i)
    (hhi : i < (firstBlockId size).1 + (firstBlockId size).2) :
    (Itoa i).length = (Itoa (firstBlockId size).1).length := by
  obtain ⟨d, h1, _, _, h4⟩ := firstBlockId_spec size
  rw [h1] at hlo hhi ⊢
  have hp : 10 ^ (d + 2) = 10 ^ (d + 1) * 10 := pow_succ 10 (d + 1)
  rw [Itoa_length i (d + 1) (by omega) (Or.inr hlo),
    Itoa_length (10 ^ (d + 1)) (d + 1) (by omega) (Or.inr le_rfl)]

/-- Claim C1: for every file size, with `(firstId, numBlocks) = firstBlockId(size)` where
`numBlocks = size / 4000000 + 1`, every identifier of the range
`[firstId, firstId + numBlocks)` is written with as many decimal digits as `firstId`. -/
theorem firstBlockId_same_width (size i : Nat)
    (hlo : (firstBlockId size).1 ≤ i)
    (hhi : i < (firstBlockId size).1 + (firstBlockId size).2) :
    (firstBlockId size).2 = size / 4000000 + 1 ∧
      (Itoa i).length = (Itoa (firstBlockId size).1).length := by
  obtain ⟨d, _, h2, _, _⟩ := firstBlockId_spec size
  exact ⟨h2, firstBlockId_width size i hlo hhi⟩

/-- The example of C1: a file of 9,000,000 bytes has three blocks, first identifier 10, and
the identifiers 10, 11, 12 are all written with two digits. -/
theorem firstBlockId_same_width_witness :
    firstBlockId 9000000 = (10, 3) ∧ (Itoa 10).length = 2 ∧ (Itoa 11).length = 2 ∧
      ((firstBlockId 9000000).2 = 9000000 / 4000000 + 1 ∧
        (Itoa 12).length = (Itoa (firstBlockId 9000000).1).length) :=
  ⟨by decide, by decide, by decide, firstBlockId_same_width 9000000 12 (by decide) (by decide)⟩

/-! ## Block tokens -/

/-- The standard alphabet has no repeated character. -/
theorem enc_injective : ∀ i < 64, ∀ j < 64, enc i = enc j → i = j := by decide

/-- The byte of a decimal digit character. -/
theorem digitChar_toNat : ∀ m < 10, (Nat.digitChar m).toNat = 48 + m := by decide

/-- The digit loop only ever puts digit bytes in front of its accumulator. -/
theorem toDigitsCore_bytes (fuel : Nat) : ∀ (n : Nat) (acc : List Char),
    (∀ c ∈ acc, c.toNat < 256) → ∀ c ∈ Nat.toDigitsCore 10 fuel n acc, c.toNat < 256 := by
  induction fuel with
  | zero => intro n acc h; simpa [Nat.toDigitsCore] using h
  | succ fuel ih =>
    intro n acc hacc
    rw [Nat.toDigitsCore]
    have hd : (Nat.digitChar (n % 10)).toNat < 256 := by
      rw [digitChar_toNat _ (Nat.mod_lt _ (by norm_num))]
      omega
    have hacc1 : ∀ c ∈ Nat.digitChar (n % 10) :: acc, c.toNat < 256 := by
      intro c hc
      rcases List.mem_cons.mp hc with h | h
      · rw [h]; exact hd
      · exact hacc c h
    by_cases h10 : n / 10 = 0
    · simpa only [h10, if_true] using hacc1
    · simpa only [h10, if_false] using ih (n / 10) _ hacc1

/-- Reading a digit string with an initial value. -/
theorem ParseInt_foldl (l : List Char) : ∀ a : Nat,
    l.foldl (fun acc c => acc * 10 + (c.toNat - 48)) a = a * 10 ^ l.length + ParseInt l := by
  unfold ParseInt
  induction l with
  | nil => intro a; simp
  | cons c l ih =>
    intro a
    rw [List.foldl_cons, List.foldl_cons, ih (a * 10 + (c.toNat - 48)),
      ih (0 * 10 + (c.toNat - 48)), List.length_cons, pow_succ]
    ring

/-- The digit loop writes the digits of `n` in front of its accumulator. -/
theorem ParseInt_toDigitsCore (fuel : Nat) : ∀ (n : Nat) (acc : List Char), n < fuel →
    ParseInt (Nat.toDigitsCore 10 fuel n acc) = n * 10 ^ acc.length + ParseInt acc := by
  induction fuel with
  | zero => intro n acc h; omega
  | succ fuel ih =>
    intro n acc hf
    rw [Nat.toDigitsCore]
    have hcons : ParseInt (Nat.digitChar (n % 10) :: acc)
        = (n % 10) * 10 ^ acc.length + ParseInt acc := by
      conv_lhs => unfold ParseInt
      rw [List.foldl_cons, ParseInt_foldl, digitChar_toNat _ (Nat.mod_lt _ (by norm_num))]
      simp
    by_cases h10 : n / 10 = 0
    · simp only [h10, if_true]
      rw [hcons, Nat.mod_eq_of_lt (by omega)]
    · simp only [h10, if_false]
      rw [ih (n / 10) _ (by omega), hcons, List.length_cons, pow_succ]
      have hn : n = 10 * (n / 10) + n % 10 := (Nat.div_add_mod n 10).symm
      generalize n / 10 = q at hn ⊢
      generalize n % 10 = r at hn ⊢
      subst hn
      ring

/-- Parsing undoes `Itoa`. -/
theorem ParseInt_Itoa (n : Nat) : ParseInt (Itoa n) = n := by
  unfold Itoa Nat.toDigits
  rw [ParseInt_toDigitsCore (n + 1) n [] (by omega)]
  simp [ParseInt]

/-- Every byte of a decimal rendering is a byte. -/
theorem Itoa_bytes (n : Nat) : ∀ b ∈ (Itoa n).map Char.toNat, b < 256 := by
  intro b hb
  obtain ⟨c, hc, rfl⟩ := List.mem_map.mp hb
  exact toDigitsCore_bytes (n + 1) n [] (by simp) c hc

/-- Four equal characters of the encoding of three bytes force the three bytes to be equal. -/
theorem sextets_injective (a0 a1 a2 b0 b1 b2 : Nat)
    (ha0 : a0 < 256) (ha1 : a1 < 256) (ha2 : a2 < 256)
    (hb0 : b0 < 256) (hb1 : b1 < 256) (hb2 : b2 < 256)
    (h1 : enc ((a0 * 65536 + a1 * 256 + a2) / 262144 % 64)
      = enc ((b0 * 65536 + b1 * 256 + b2) / 262144 % 64))
    (h2 : enc ((a0 * 65536 + a1 * 256 + a2) / 4096 % 64)
      = enc ((b0 * 65536 + b1 * 256 + b2) / 4096 % 64))
    (h3 : enc ((a0 * 65536 + a1 * 256 + a2) / 64 % 64)
      = enc ((b0 * 65536 + b1 * 256 + b2) / 64 % 64))
    (h4 : enc ((a0 * 65536 + a1 * 256 + a2) % 64) = enc ((b0 * 65536 + b1 * 256 + b2) % 64)) :
    a0 = b0 ∧ a1 = b1 ∧ a2 = b2 := by
  have e1 := enc_injective _ (Nat.mod_lt _ (by norm_num)) _ (Nat.mod_lt _ (by norm_num)) h1
  have e2 := enc_injective _ (Nat.mod_lt _ (by norm_num)) _ (Nat.mod_lt _ (by norm_num)) h2
  have e3 := enc_injective _ (Nat.mod_lt _ (by norm_num)) _ (Nat.mod_lt _ (by norm_num)) h3
  have e4 := enc_injective _ (Nat.mod_lt _ (by norm_num)) _ (Nat.mod_lt _ (by norm_num)) h4
  omega

/-- The length of an encoding depends only on the length of the input. -/
theorem EncodeToString_length : ∀ (n : Nat) (l1 l2 : List Nat), l1.length = n → l2.length = n →
    (EncodeToString l1).length = (EncodeToString l2).length := by
  intro n
  induction n using Nat.strong_induction_on with
  | _ n ih =>
    intro l1 l2 h1 h2
    match l1, l2, h1, h2 with
    | [], [], _, _ => rfl
    | [_], [_], _, _ => simp [EncodeToString]
    | [_, _], [_, _], _, _ => simp [EncodeToString]
    | a0 :: a1 :: a2 :: r1, b0 :: b1 :: b2 :: r2, h1, h2 =>
      simp only [EncodeToString, List.length_cons]
      have := ih r1.length (by simp only [List.length_cons] at h1; omega) r1 r2 rfl
        (by simp only [List.length_cons] at h1 h2; omega)
      omega
    | [], _ :: _, h1, h2 => simp at h1 h2; omega
    | _ :: _, [], h1, h2 => simp at h1 h2; omega
    | [_], _ :: _ :: _, h1, h2 => simp at h1 h2; omega
    | _ :: _ :: _, [_], h1, h2 => simp at h1 h2; omega
    | [_, _], _ :: _ :: _ :: _, h1, h2 => simp at h1 h2; omega
    | _ :: _ :: _ :: _, [_, _], h1, h2 => simp at h1 h2; omega

/-- The encoding is injective on byte sequences of one length. -/
theorem EncodeToString_injective : ∀ (n : Nat) (l1 l2 : List Nat), l1.length = n →
    l2.length = n → (∀ b ∈ l1, b < 256) → (∀ b ∈ l2, b < 256) →
    EncodeToString l1 = EncodeToString l2 → l1 = l2 := by
  intro n
  induction n using Nat.strong_induction_on with
  | _ n ih =>
    intro l1 l2 h1 h2 hb1 hb2 he
    match l1, l2, h1, h2, hb1, hb2, he with
    | [], [], _, _, _, _, _ => rfl
    | [a0], [b0], _, _, hb1, hb2, he =>
      simp only [EncodeToString, List.cons.injEq, and_true] at he
      have ha := hb1 a0 (by simp)
      have hb := hb2 b0 (by simp)
      have e1 := enc_injective _ (Nat.mod_lt _ (by norm_num)) _ (Nat.mod_lt _ (by norm_num)) he.1
      have e2 := enc_injective _ (Nat.mod_lt _ (by norm_num)) _ (Nat.mod_lt _ (by norm_num)) he.2
      have : a0 = b0 := by omega
      rw [this]
    | [a0, a1], [b0, b1], _, _, hb1, hb2, he =>
      simp only [EncodeToString, List.cons.injEq, and_true] at he
      have ha0 := hb1 a0 (by simp)
      have ha1 := hb1 a1 (by simp)
      have hb0 := hb2 b0 (by simp)
      have hb1 := hb2 b1 (by simp)
      have e1 := enc_injective _ (Nat.mod_lt _ (by norm_num)) _ (Nat.mod_lt _ (by norm_num)) he.1
      have e2 := enc_injective _ (Nat.mod_lt _ (by norm_num)) _ (Nat.mod_lt _ (by norm_num))
        he.2.1
      have e3 := enc_injective _ (Nat.mod_lt _ (by norm_num)) _ (Nat.mod_lt _ (by norm_num))
        he.2.2
      have : a0 = b0 ∧ a1 = b1 := by omega
      rw [this.1, this.2]
    | a0 :: a1 :: a2 :: r1, b0 :: b1 :: b2 :: r2, h1, h2, hb1, hb2, he =>
      simp only [EncodeToString, List.cons.injEq] at he
      obtain ⟨e1, e2, e3, e4, er⟩ := he
      obtain ⟨x0, x1, x2⟩ := sextets_injective a0 a1 a2 b0 b1 b2 (hb1 a0 (by simp))
        (hb1 a1 (by simp)) (hb1 a2 (by simp)) (hb2 b0 (by simp)) (hb2 b1 (by simp))
        (hb2 b2 (by simp)) e1 e2 e3 e4
      have hr := ih r1.length (by simp only [List.length_cons] at h1; omega) r1 r2 rfl
        (by simp only [List.length_cons] at h1 h2; omega)
        (fun b hb => hb1 b (by simp [hb])) (fun b hb => hb2 b (by simp [hb])) er
      rw [x0, x1, x2, hr]
    | [], _ :: _, h1, h2, _, _, _ => simp at h1 h2; omega
    | _ :: _, [], h1, h2, _, _, _ => simp at h1 h2; omega
    | [_], _ :: _ :: _, h1, h2, _, _, _ => simp at h1 h2; omega
    | _ :: _ :: _, [_], h1, h2, _, _, _ => simp at h1 h2; omega
    | [_, _], _ :: _ :: _ :: _, h1, h2, _, _, _ => simp at h1 h2; omega
    | _ :: _ :: _ :: _, [_, _], h1, h2, _, _, _ => simp at h1 h2; omega

/-- Among the two-digit identifiers 10 to 18, the order of the tokens is the order of the
identifiers. -/
theorem strId_two_digit_order : ∀ i < 19, ∀ j < 19, 10 ≤ i → i < j →
    strLess (strId i) (strId j) = true := by decide

/-- Two numbers with the same decimal bytes are equal. -/
theorem Itoa_bytes_injective (i j : Nat)
    (h : (Itoa i).map Char.toNat = (Itoa j).map Char.toNat) : i = j := by
  have hp : ∀ l : List Char,
      ParseInt l = (l.map Char.toNat).foldl (fun acc b => acc * 10 + (b - 48)) 0 := by
    intro l
    unfold ParseInt
    rw [List.foldl_map]
  have h1 := hp (Itoa i)
  rw [h, ← hp, ParseInt_Itoa, ParseInt_Itoa] at h1
  exact h1

/-- A file of fewer than 36,000,000 bytes has at most nine blocks, numbered from 10. -/
theorem firstBlockId_small (size : Nat) (hsize : size < 36000000) :
    (firstBlockId size).1 = 10 ∧ (firstBlockId size).2 ≤ 9 := by
  obtain ⟨d, h1, h2, h3, _⟩ := firstBlockId_spec size
  have hnb : (firstBlockId size).2 ≤ 9 := by
    rw [h2]
    unfold maxBlockSize
    omega
  have hd : d = 0 := by
    by_contra hd0
    have : 10 ^ 1 ≤ 10 ^ d := Nat.pow_le_pow_right (by norm_num) (by omega)
    omega
  subst hd
  exact ⟨by rw [h1]; norm_num, hnb⟩

/-- Claim C2, as the code has it: for every file size and any two block identifiers
`i < j` of the range `[firstId, firstId + numBlocks)`, the two block tokens have the same
length and are different; and when the file is smaller than 36,000,000 bytes (at most nine
blocks, identifiers of two digits) the token of `i` is byte-wise lexicographically smaller
than the token of `j`. -/
theorem strId_fixed_width (size i j : Nat)
    (hlo : (firstBlockId size).1 ≤ i) (hij : i < j)
    (hhi : j < (firstBlockId size).1 + (firstBlockId size).2) :
    (strId i).length = (strId j).length ∧ strId i ≠ strId j ∧
      (size < 36000000 → strLess (strId i) (strId j) = true) := by
  have hwi := firstBlockId_width size i hlo (by omega)
  have hwj := firstBlockId_width size j (by omega) hhi
  have hlen : ((Itoa i).map Char.toNat).length = ((Itoa j).map Char.toNat).length := by
    rw [List.length_map, List.length_map, hwi, hwj]
  refine ⟨?_, ?_, ?_⟩
  · exact EncodeToString_length _ _ _ hlen rfl
  · intro he
    have := EncodeToString_injective _ _ _ hlen rfl (Itoa_bytes i) (Itoa_bytes j) he
    have := Itoa_bytes_injective i j this
    omega
  · intro hsize
    obtain ⟨h10, h9⟩ := firstBlockId_small size hsize
    exact strId_two_digit_order i (by omega) j (by omega) (by omega) hij

/-- The example of the specification under C2: the three blocks of a 9,000,000-byte file
have the tokens of 10, 11 and 12, in increasing order. -/
theorem strId_fixed_width_witness :
    strId 10 = "MTA=".toList ∧ strId 12 = "MTI=".toList ∧
      ((strId 10).length = (strId 12).length ∧ strId 10 ≠ strId 12 ∧
        (9000000 < 36000000 → strLess (strId 10) (strId 12) = true)) :=
  ⟨by decide, by decide, strId_fixed_width 9000000 10 12 (by decide) (by decide) (by decide)⟩

/-- Claim C2 fails as stated: a file of 36,000,000 bytes has ten blocks, numbered 100 to
109; the tokens of 103 and 104 are `MTAz` and `MTA0`, and byte-wise `MTA0` comes before
`MTAz`: the token of the smaller identifier is the greater one. -/
theorem strId_order_counterexample :
    firstBlockId 36000000 = (100, 10) ∧
      (firstBlockId 36000000).1 ≤ 103 ∧ 103 < 104 ∧
      104 < (firstBlockId 36000000).1 + (firstBlockId 36000000).2 ∧
      strId 103 = "MTAz".toList ∧ strId 104 = "MTA0".toList ∧
      strLess (strId 103) (strId 104) = false ∧ strLess (strId 104) (strId 103) = true := by
  decide

/-! ## `putAzureBlocks` and `putFile` -/

/-- The staging loop only sends `PutBlock` requests; it goes on while they are accepted, and
when one is refused that request is the last one sent and its error is the loop's result. -/
theorem putAzureBlocksLoop_log (svc : BlobStorageClient) (blob : BlobSpec) (dst : Str)
    (firstId : Nat) : ∀ (reads : List (Nat × Option GoError)) (id : Nat) (blocks : List Block)
      (err : Option GoError) (log : List Call), (∀ call ∈ log, stagedOk svc call) →
    (∀ e, (putAzureBlocksLoop svc blob dst firstId reads id blocks err log).1 = .putErr e →
      ∃ log0 t n, (putAzureBlocksLoop svc blob dst firstId reads id blocks err log).2
          = log0 ++ [Call.PutBlock blob.Container dst t n] ∧
        svc.PutBlock blob.Container dst t n = some e ∧ ∀ call ∈ log0, stagedOk svc call) ∧
    ((∀ e, (putAzureBlocksLoop svc blob dst firstId reads id blocks err log).1 ≠ .putErr e) →
      ∀ call ∈ (putAzureBlocksLoop svc blob dst firstId reads id blocks err log).2,
        stagedOk svc call) := by
  intro reads
  induction reads with
  | nil =>
    intro id blocks err log hlog
    exact ⟨fun e h => by simp [putAzureBlocksLoop] at h,
      fun _ => by simpa [putAzureBlocksLoop] using hlog⟩
  | cons r rest ih =>
    obtain ⟨n, e⟩ := r
    intro id blocks err log hlog
    rw [putAzureBlocksLoop]
    by_cases hc : n > 0 ∧ (e = none ∨ e = some GoError.EOF)
    · rw [if_pos hc]
      cases hput : svc.PutBlock blob.Container dst (strId id) n with
      | some putErr =>
        simp only
        refine ⟨fun e1 h => ?_, fun h => absurd rfl (h putErr)⟩
        have he : putErr = e1 := by cases h; rfl
        subst he
        exact ⟨log, strId id, n, rfl, hput, hlog⟩
      | none =>
        simp only
        have hlog1 : ∀ call ∈ log ++ [Call.PutBlock blob.Container dst (strId id) n],
            stagedOk svc call := by
          intro call hcall
          rcases List.mem_append.mp hcall with h | h
          · exact hlog call h
          · rw [List.mem_singleton.mp h]
            exact ⟨_, _, _, _, rfl, hput⟩
        by_cases hidx : id - firstId < blocks.length
        · rw [if_pos hidx]
          exact ih _ _ _ _ hlog1
        · rw [if_neg hidx]
          exact ⟨fun e h => by simp at h, fun _ => hlog1⟩
    · rw [if_neg hc]
      exact ⟨fun e h => by simp at h, fun _ => hlog⟩

/-- Claim C3, the code at a file whose size is a multiple of the block size: for a regular
file of 4,000,000 bytes and a service that accepts every request, one block is staged (token
`MTA=`, the identifier 10), and the list that `putFile` commits with `PutBlockList` has two
entries, the staged block followed by an entry with an empty token and an empty status. -/
theorem putFile_commits_empty_entry :
    firstBlockId 4000000 = (10, 2) ∧
    (regularFile 4000000).reads = [(4000000, none)] ∧
    putFile (remoteListing []) (.ok (regularFile 4000000)) { key := "k".toList }
      = (.ok (), [Call.PutBlock "c".toList "k".toList "MTA=".toList 4000000,
          Call.PutBlockList "c".toList "k".toList
            [⟨"MTA=".toList, "Uncommitted".toList⟩, ⟨[], []⟩]]) := by
  decide

/-- Claim C5, the code at a file of zero bytes: for a regular file of zero bytes and a
service that accepts every request, `putFile` sends `CreateBlockBlob` and then still sends
`PutBlockList`, with a list of one entry whose token and status are empty. -/
theorem putFile_empty_file_commits :
    firstBlockId 0 = (10, 1) ∧
    (regularFile 0).reads = [] ∧
    putFile (remoteListing []) (.ok (regularFile 0)) { key := "k".toList }
      = (.ok (), [Call.CreateBlockBlob "c".toList "k".toList,
          Call.PutBlockList "c".toList "k".toList [⟨[], []⟩]]) := by
  decide

/-- Besides the requests of its staging loop, `putAzureBlocks` sends at most one
`CreateBlockBlob` request. -/
theorem putAzureBlocks_log (svc : BlobStorageClient) (f : File) (blob : BlobSpec) (dst : Str)
    (call : Call) (hcall : call ∈ (putAzureBlocks svc f blob dst).2) :
    call ∈ (putAzureBlocksLoop svc blob dst (firstBlockId f.size).1 f.reads
        (firstBlockId f.size).1 (List.replicate (firstBlockId f.size).2 ⟨[], []⟩) none []).2 ∨
      call = Call.CreateBlockBlob blob.Container dst := by
  unfold putAzureBlocks at hcall
  simp only at hcall
  rcases hL : putAzureBlocksLoop svc blob dst (firstBlockId f.size).1 f.reads
    (firstBlockId f.size).1 (List.replicate (firstBlockId f.size).2 ⟨[], []⟩) none []
    with ⟨exit, log⟩
  rw [hL] at hcall
  rcases exit with ⟨id, blocks, err⟩ | e | _
  · rcases err with _ | _ | text <;> simp only at hcall
    · split_ifs at hcall
      · cases hcr : svc.CreateBlockBlob blob.Container dst <;> simp only [hcr] at hcall <;>
          simpa using hcall
      · exact Or.inl hcall
    · split_ifs at hcall
      · cases hcr : svc.CreateBlockBlob blob.Container dst <;> simp only [hcr] at hcall <;>
          simpa using hcall
      · exact Or.inl hcall
    · exact Or.inl hcall
  · exact Or.inl hcall
  · exact Or.inl hcall

/-- Besides the requests of `putAzureBlocks`, the rest of `putFile` sends at most one
`PutBlockList` request. -/
theorem putFile_tail_log (service : BlobStorageClient) (container dstKey : Str)
    (r : Outcome (List Block) × List Call) (call : Call)
    (hcall : call ∈ (match r with
      | (.panic, log) => ((.panic : Outcome Unit), log)
      | (.err _ e, log) => (.err () e, log)
      | (.ok blocks, log) =>
        if blocks.length > 0 then
          match service.PutBlockList container dstKey blocks with
          | some e => (.err () e, log ++ [Call.PutBlockList container dstKey blocks])
          | none => (.ok (), log ++ [Call.PutBlockList container dstKey blocks])
        else (.ok (), log)).2) :
    call ∈ r.2 ∨ ∃ blocks, call = Call.PutBlockList container dstKey blocks := by
  obtain ⟨o, log⟩ := r
  rcases o with blocks | ⟨v, e⟩ | _ <;> simp only at hcall
  · split_ifs at hcall
    · cases hpl : service.PutBlockList container dstKey blocks <;> simp only [hpl] at hcall <;>
        rcases List.mem_append.mp hcall with h | h
      · exact Or.inl h
      · exact Or.inr ⟨blocks, List.mem_singleton.mp h⟩
      · exact Or.inl h
      · exact Or.inr ⟨blocks, List.mem_singleton.mp h⟩
    · exact Or.inl hcall
  · exact Or.inl hcall
  · exact Or.inl hcall

/-- The destination name `dstKey` that `putFile` computes for a key. -/
theorem putFile_unfold (remote : AzureRemote) (service : BlobStorageClient) (f : File)
    (key : azKeyDef) (hsvc : remote.azureBlobClient = .ok service) :
    ∃ dstKey, putFile remote (.ok f) key =
      (match putAzureBlocks service f remote.Blob dstKey with
      | (.panic, log) => (.panic, log)
      | (.err _ e, log) => (.err () e, log)
      | (.ok blocks, log) =>
        if blocks.length > 0 then
          match service.PutBlockList remote.Blob.Container dstKey blocks with
          | some e => (.err () e, log ++ [Call.PutBlockList remote.Blob.Container dstKey blocks])
          | none => (.ok (), log ++ [Call.PutBlockList remote.Blob.Container dstKey blocks])
        else (.ok (), log)) := by
  refine ⟨if remote.Blob.PathPresent then remote.Blob.Path ++ "/".toList ++ key.key
    else key.key, ?_⟩
  simp only [putFile, hsvc]

/-- Claim C4: whenever a `PutBlock` request that `putFile` sent for a file was refused by
the service, `putAzureBlocks` returned that error, `putFile` returns it too, the refused
request is the last request of the run (no later block is staged) and no `PutBlockList`
request was sent. -/
theorem putFile_stage_failure (remote : AzureRemote) (service : BlobStorageClient) (f : File)
    (key : azKeyDef) (c d t : Str) (n : Nat) (e : GoError)
    (hsvc : remote.azureBlobClient = .ok service)
    (hsent : Call.PutBlock c d t n ∈ (putFile remote (.ok f) key).2)
    (hfail : service.PutBlock c d t n = some e) :
    (putAzureBlocks service f remote.Blob d).1 = .err [] e ∧
      (putFile remote (.ok f) key).1 = .err () e ∧
      (putFile remote (.ok f) key).2.getLast? = some (Call.PutBlock c d t n) ∧
      ∀ c1 d1 blocks, Call.PutBlockList c1 d1 blocks ∉ (putFile remote (.ok f) key).2 := by
  obtain ⟨dstKey, hput⟩ := putFile_unfold remote service f key hsvc
  rw [hput] at hsent ⊢
  have hinv := putAzureBlocksLoop_log service remote.Blob dstKey (firstBlockId f.size).1
    f.reads (firstBlockId f.size).1 (List.replicate (firstBlockId f.size).2 ⟨[], []⟩) none []
    (by simp)
  have hnot : ¬ stagedOk service (Call.PutBlock c d t n) := by
    rintro ⟨c1, d1, t1, n1, heq, hok⟩
    cases heq
    rw [hfail] at hok
    cases hok
  unfold putAzureBlocks at hsent ⊢
  simp only at hsent ⊢
  rcases hL : putAzureBlocksLoop service remote.Blob dstKey (firstBlockId f.size).1
    f.reads (firstBlockId f.size).1 (List.replicate (firstBlockId f.size).2 ⟨[], []⟩) none []
    with ⟨exit, log⟩
  rw [hL] at hinv hsent
  cases exit with
  | putErr e1 =>
    obtain ⟨log0, t1, n1, hlog, hf1, hlog0⟩ := hinv.1 e1 rfl
    simp only at hlog hsent
    subst hlog
    rcases List.mem_append.mp hsent with h | h
    · exact absurd (hlog0 _ h) hnot
    · have heq := List.mem_singleton.mp h
      cases heq
      rw [hfail] at hf1
      cases hf1
      rw [hL]
      refine ⟨rfl, rfl, by simp, ?_⟩
      intro c1 d1 blocks hmem
      rcases List.mem_append.mp hmem with h1 | h1
      · obtain ⟨_, _, _, _, heq, _⟩ := hlog0 _ h1
        cases heq
      · cases List.mem_singleton.mp h1
  | indexOutOfRange =>
    have hall := hinv.2 (by intro e1 h; cases h)
    simp only at hall hsent
    exact absurd (hall _ hsent) hnot
  | done id blocks err =>
    have hall := hinv.2 (by intro e1 h; cases h)
    simp only at hall
    rw [← hL] at hsent
    rcases putFile_tail_log service remote.Blob.Container dstKey _ _ hsent with h | ⟨bl, h⟩
    · rcases putAzureBlocks_log service f remote.Blob dstKey _ h with h1 | h1
      · rw [hL] at h1
        exact absurd (hall _ h1) hnot
      · cases h1
    · cases h

/-- The conclusion of C4 on a file of 9,000,000 bytes whose second block (identifier 11,
token `MTE=`) the service refuses: two `PutBlock` requests are sent and nothing else. -/
theorem putFile_stage_failure_witness :
    (putFile ⟨⟨"c".toList, [], false⟩, .ok (serviceRefusing "MTE=".toList "refused".toList)⟩
        (.ok (regularFile 9000000)) { key := "k".toList }).2
      = [Call.PutBlock "c".toList "k".toList "MTA=".toList 4000000,
          Call.PutBlock "c".toList "k".toList "MTE=".toList 4000000] ∧
    ((putAzureBlocks (serviceRefusing "MTE=".toList "refused".toList) (regularFile 9000000)
        ⟨"c".toList, [], false⟩ "k".toList).1 = .err [] (.other "refused".toList) ∧
      (putFile ⟨⟨"c".toList, [], false⟩, .ok (serviceRefusing "MTE=".toList "refused".toList)⟩
        (.ok (regularFile 9000000)) { key := "k".toList }).1 = .err () (.other "refused".toList) ∧
      (putFile ⟨⟨"c".toList, [], false⟩, .ok (serviceRefusing "MTE=".toList "refused".toList)⟩
        (.ok (regularFile 9000000)) { key := "k".toList }).2.getLast?
        = some (Call.PutBlock "c".toList "k".toList "MTE=".toList 4000000) ∧
      ∀ c1 d1 blocks, Call.PutBlockList c1 d1 blocks ∉
        (putFile ⟨⟨"c".toList, [], false⟩,
          .ok (serviceRefusing "MTE=".toList "refused".toList)⟩
          (.ok (regularFile 9000000)) { key := "k".toList }).2) :=
  ⟨by decide,
    putFile_stage_failure
      ⟨⟨"c".toList, [], false⟩, .ok (serviceRefusing "MTE=".toList "refused".toList)⟩
      (serviceRefusing "MTE=".toList "refused".toList) (regularFile 9000000)
      { key := "k".toList } "c".toList "k".toList "MTE=".toList 4000000
      (.other "refused".toList) rfl (by decide) (by decide)⟩

/-! ## Key sets -/

/-- Reading a key just written. -/
theorem azKeys.find_set_self (k : azKeys) (key : Str) (v : azKeyDef) :
    (k.set key v).find key = some v := by
  induction k with
  | nil => simp [azKeys.set, azKeys.find]
  | cons kv rest ih =>
    obtain ⟨a, w⟩ := kv
    by_cases h : a = key
    · simp [azKeys.set, azKeys.find, h]
    · simp [azKeys.set, azKeys.find, h, ih]

/-- Writing a key leaves the other keys as they were. -/
theorem azKeys.find_set_ne (k : azKeys) (key other : Str) (v : azKeyDef) (h : other ≠ key) :
    (k.set key v).find other = k.find other := by
  induction k with
  | nil =>
    simp only [azKeys.set, azKeys.find]
    rw [if_neg (fun h1 => h h1.symm)]
  | cons kv rest ih =>
    obtain ⟨a, w⟩ := kv
    by_cases h1 : a = key
    · subst h1
      simp only [azKeys.set, if_true, azKeys.find]
      rw [if_neg (fun h2 => h h2.symm), if_neg (fun h2 => h h2.symm)]
    · simp only [azKeys.set, if_neg h1, azKeys.find, ih]

/-- The keys of a map after a write. -/
theorem azKeys.keys_set (k : azKeys) (key : Str) (v : azKeyDef) :
    (k.set key v).map Prod.fst
      = if key ∈ k.map Prod.fst then k.map Prod.fst else k.map Prod.fst ++ [key] := by
  induction k with
  | nil => simp [azKeys.set]
  | cons kv rest ih =>
    obtain ⟨a, w⟩ := kv
    by_cases h : a = key
    · subst h
      simp [azKeys.set]
    · have h1 : ¬ key = a := fun h2 => h h2.symm
      simp only [azKeys.set, if_neg h, List.map_cons, ih, List.mem_cons, h1, false_or]
      split_ifs <;> simp

/-- A write keeps the keys of a map distinct. -/
theorem azKeys.nodup_set (k : azKeys) (key : Str) (v : azKeyDef)
    (h : (k.map Prod.fst).Nodup) : ((k.set key v).map Prod.fst).Nodup := by
  rw [azKeys.keys_set]
  split_ifs with hmem
  · exact h
  · exact List.Nodup.append h (List.nodup_singleton key) (by simpa using hmem)

/-- An entry read from a map is one of its entries. -/
theorem azKeys.mem_of_find (k : azKeys) (key : Str) (v : azKeyDef) (h : k.find key = some v) :
    (key, v) ∈ k := by
  induction k with
  | nil => simp [azKeys.find] at h
  | cons kv rest ih =>
    obtain ⟨a, w⟩ := kv
    by_cases h1 : a = key
    · subst h1
      simp only [azKeys.find, if_true, Option.some.injEq] at h
      simp [h]
    · simp only [azKeys.find, if_neg h1] at h
      exact List.mem_cons_of_mem _ (ih h)

/-- In a map with distinct keys every entry is the one read under its key. -/
theorem azKeys.find_of_mem (k : azKeys) (key : Str) (v : azKeyDef)
    (hnd : (k.map Prod.fst).Nodup) (h : (key, v) ∈ k) : k.find key = some v := by
  induction k with
  | nil => simp at h
  | cons kv rest ih =>
    obtain ⟨a, w⟩ := kv
    rw [List.map_cons, List.nodup_cons] at hnd
    rcases List.mem_cons.mp h with h1 | h1
    · cases h1
      simp [azKeys.find]
    · have hne : a ≠ key := by
        intro h2
        subst h2
        exact hnd.1 (List.mem_map.mpr ⟨(a, v), h1, rfl⟩)
      simp only [azKeys.find, if_neg hne]
      exact ih hnd.2 h1

/-- A string with a suffix is what `TrimSuffix` leaves of it, followed by the suffix. -/
theorem TrimSuffix_append (s suffix : Str) (h : HasSuffix s suffix = true) :
    TrimSuffix s suffix ++ suffix = s := by
  unfold TrimSuffix
  rw [if_pos h]
  unfold HasSuffix at h
  obtain ⟨t, rfl⟩ := of_decide_eq_true h
  simp

/-- One step of the loop of `repoKeys`: the blob is filed under `targetKey name`; the entry
there is the former one (or a fresh one with that key) with `sumKey`, for a name that ends in
`.sum` once its leading slash is removed, or else `remotePath`, set to the name; the other
entries are untouched and the keys stay distinct. -/
theorem repoKeysStep_spec (k : azKeys) (name : Str) :
    ∃ e0, (k.find (targetKey name) = some e0 ∨
        (k.find (targetKey name) = none ∧ e0 = { key := targetKey name, remote := true })) ∧
      (repoKeysStep k name).find (targetKey name)
        = some (if HasSuffix (TrimPrefix name "/".toList) ".sum".toList
            then { e0 with sumKey := name } else { e0 with remotePath := name }) ∧
      (∀ other, other ≠ targetKey name → (repoKeysStep k name).find other = k.find other) ∧
      ((k.map Prod.fst).Nodup → ((repoKeysStep k name).map Prod.fst).Nodup) := by
  unfold repoKeysStep targetKey azKeys.Get
  by_cases hs : HasSuffix (TrimPrefix name "/".toList) ".sum".toList = true
  · simp only [hs, if_true]
    cases hf : k.find (TrimSuffix (TrimPrefix name "/".toList) ".sum".toList) with
    | some e0 =>
      exact ⟨e0, Or.inl rfl, azKeys.find_set_self _ _ _,
        fun other ho => azKeys.find_set_ne _ _ _ _ ho, fun hnd => azKeys.nodup_set _ _ _ hnd⟩
    | none =>
      refine ⟨_, Or.inr ⟨rfl, rfl⟩, azKeys.find_set_self _ _ _, fun other ho => ?_,
        fun hnd => azKeys.nodup_set _ _ _ (azKeys.nodup_set _ _ _ hnd)⟩
      simp only
      rw [azKeys.find_set_ne _ _ _ _ ho, azKeys.find_set_ne _ _ _ _ ho]
  · rw [Bool.not_eq_true] at hs
    simp only [hs, Bool.false_eq_true, if_false]
    cases hf : k.find (TrimPrefix name "/".toList) with
    | some e0 =>
      exact ⟨e0, Or.inl rfl, azKeys.find_set_self _ _ _,
        fun other ho => azKeys.find_set_ne _ _ _ _ ho, fun hnd => azKeys.nodup_set _ _ _ hnd⟩
    | none =>
      refine ⟨_, Or.inr ⟨rfl, rfl⟩, azKeys.find_set_self _ _ _, fun other ho => ?_,
        fun hnd => azKeys.nodup_set _ _ _ (azKeys.nodup_set _ _ _ hnd)⟩
      simp only
      rw [azKeys.find_set_ne _ _ _ _ ho, azKeys.find_set_ne _ _ _ _ ho]

/-- One step of the loop of `repoKeys` keeps the invariant. -/
theorem repoKeysInv_step (k : azKeys) (done : List Str) (n : Str) (h : repoKeysInv k done) :
    repoKeysInv (repoKeysStep k n) (done ++ [n]) := by
  obtain ⟨hnd, hkey, hrec⟩ := h
  obtain ⟨e0, he0, hfind, hother, hnd1⟩ := repoKeysStep_spec k n
  have he0key : e0.key = targetKey n := by
    rcases he0 with h1 | ⟨_, h1⟩
    · exact hkey _ _ h1
    · rw [h1]
  refine ⟨hnd1 hnd, ?_, ?_⟩
  · intro q e hq
    by_cases hqn : q = targetKey n
    · subst hqn
      rw [hfind] at hq
      cases hq
      split_ifs <;> exact he0key
    · rw [hother q hqn] at hq
      exact hkey q e hq
  · intro m hm
    rcases List.mem_append.mp hm with hm1 | hm1
    · obtain ⟨e, hfe, hprop⟩ := hrec m hm1
      by_cases hmn : targetKey m = targetKey n
      · have hee : e0 = e := by
          rcases he0 with h1 | ⟨h1, _⟩
          · rw [hmn, h1] at hfe
            cases hfe
            rfl
          · rw [hmn, h1] at hfe
            cases hfe
        subst hee
        unfold recorded
        rw [hmn, hfind]
        refine ⟨_, rfl, ?_⟩
        by_cases hsm : HasSuffix (TrimPrefix m "/".toList) ".sum".toList = true <;>
          by_cases hsn : HasSuffix (TrimPrefix n "/".toList) ".sum".toList = true
        · simp only [hsm, hsn, if_true]
          refine ⟨by simp, ?_⟩
          unfold targetKey at hmn
          rw [if_pos hsm, if_pos hsn] at hmn
          rw [← TrimSuffix_append _ _ hsm, ← TrimSuffix_append _ _ hsn, hmn]
        · simp only [hsm, hsn, if_true, if_false] at hprop ⊢
          exact ⟨List.mem_append_left _ hprop.1, hprop.2⟩
        · simp only [hsm, hsn, if_true, if_false] at hprop ⊢
          exact ⟨List.mem_append_left _ hprop.1, hprop.2⟩
        · simp only [hsm, hsn, if_false] at hprop ⊢
          refine ⟨by simp, ?_⟩
          unfold targetKey at hmn
          rw [if_neg hsm, if_neg hsn] at hmn
          exact hmn.symm
      · unfold recorded
        rw [hother _ hmn]
        refine ⟨e, hfe, ?_⟩
        split_ifs with hsm
        · rw [if_pos hsm] at hprop
          exact ⟨List.mem_append_left _ hprop.1, hprop.2⟩
        · rw [if_neg hsm] at hprop
          exact ⟨List.mem_append_left _ hprop.1, hprop.2⟩
    · have hmn : m = n := List.mem_singleton.mp hm1
      subst hmn
      unfold recorded
      rw [hfind]
      refine ⟨_, rfl, ?_⟩
      by_cases hsm : HasSuffix (TrimPrefix m "/".toList) ".sum".toList = true
      · simp only [hsm, if_true]
        exact ⟨by simp, trivial⟩
      · rw [Bool.not_eq_true] at hsm
        simp only [hsm, Bool.false_eq_true, if_false]
        exact ⟨by simp, trivial⟩

/-- The loop of `repoKeys` keeps the invariant. -/
theorem repoKeysInv_fold : ∀ (names : List Str) (k : azKeys) (done : List Str),
    repoKeysInv k done → repoKeysInv (names.foldl repoKeysStep k) (done ++ names) := by
  intro names
  induction names with
  | nil => intro k done h; simpa using h
  | cons n rest ih =>
    intro k done h
    have := ih (repoKeysStep k n) (done ++ [n]) (repoKeysInv_step k done n h)
    simpa using this

/-- A blob filed under another key changes nothing in what a listing leaves under `q`. -/
theorem listedEntry_append_other (done : List Str) (n q : Str) (h : q ≠ targetKey n) :
    listedEntry (done ++ [n]) q = listedEntry done q := by
  have hne : ¬ targetKey n = q := fun h1 => h h1.symm
  unfold listedEntry listedDef lastListed
  simp [List.any_append, List.filter_append, hne]

/-- The blob that ends a listing is the last one filed under its key in its role, and it
leaves the other role as it was. -/
theorem lastListed_append_self (done : List Str) (n : Str) (role : Bool) :
    lastListed (done ++ [n]) (targetKey n) role
      = if isSumName n = role then n else lastListed done (targetKey n) role := by
  unfold lastListed
  by_cases h : isSumName n = role
  · simp [List.filter_append, h]
  · simp [List.filter_append, h]

/-- Without a blob filed under `q` a listing has no last blob there. -/
theorem lastListed_none (done : List Str) (q : Str) (role : Bool)
    (h : done.any (fun n => decide (targetKey n = q)) = false) : lastListed done q role = [] := by
  unfold lastListed
  have : done.filter (fun n => decide (targetKey n = q) && (isSumName n == role)) = [] := by
    rw [List.filter_eq_nil_iff]
    intro a ha
    rw [List.any_eq_false] at h
    have := h a ha
    simp only [decide_eq_true_eq] at this
    simp [this]
  rw [this]
  rfl

/-- One step of the loop of `repoKeys` takes the map of a listing to the map of the listing
with the blob added. -/
theorem repoKeysStep_exact (k : azKeys) (done : List Str) (n : Str)
    (h : ∀ q, k.find q = listedEntry done q) :
    ∀ q, (repoKeysStep k n).find q = listedEntry (done ++ [n]) q := by
  obtain ⟨e0, he0, hfind, hother, _⟩ := repoKeysStep_spec k n
  intro q
  by_cases hq : q = targetKey n
  · subst hq
    have he0eq : e0 = listedDef done (targetKey n) := by
      by_cases hany : done.any (fun m => decide (targetKey m = targetKey n)) = true
      · have hl : listedEntry done (targetKey n) = some (listedDef done (targetKey n)) := by
          unfold listedEntry
          rw [if_pos hany]
        rcases he0 with h1 | ⟨h1, _⟩
        · rw [h, hl] at h1
          cases h1
          rfl
        · rw [h, hl] at h1
          cases h1
      · rw [Bool.not_eq_true] at hany
        have hl : listedEntry done (targetKey n) = none := by
          unfold listedEntry
          rw [hany]
          rfl
        rcases he0 with h1 | ⟨_, h1⟩
        · rw [h, hl] at h1
          cases h1
        · rw [h1]
          unfold listedDef
          rw [lastListed_none done _ true hany, lastListed_none done _ false hany]
    have hany1 : (done ++ [n]).any (fun m => decide (targetKey m = targetKey n)) = true := by
      simp [List.any_append]
    rw [hfind]
    unfold listedEntry
    rw [if_pos hany1, he0eq]
    unfold listedDef
    rw [lastListed_append_self, lastListed_append_self]
    by_cases hs : HasSuffix (TrimPrefix n "/".toList) ".sum".toList = true
    · have hs1 : isSumName n = true := hs
      rw [if_pos hs, if_pos hs1, if_neg (by rw [hs1]; decide)]
    · have hs1 : isSumName n = false := by
        unfold isSumName
        exact Bool.not_eq_true _ ▸ hs
      rw [if_neg hs, if_neg (by rw [hs1]; decide), if_pos hs1]
  · rw [hother q hq, h q, listedEntry_append_other done n q hq]

/-- The loop of `repoKeys` takes the empty map to the map of the listing. -/
theorem repoKeys_fold_exact : ∀ (rest done : List Str) (k : azKeys),
    (∀ q, k.find q = listedEntry done q) →
    ∀ q, (rest.foldl repoKeysStep k).find q = listedEntry (done ++ rest) q := by
  intro rest
  induction rest with
  | nil => intro done k h q; simpa using h q
  | cons n rest ih =>
    intro done k h q
    have := ih (done ++ [n]) (repoKeysStep k n) (repoKeysStep_exact k done n h) q
    simpa using this

/-- A name that does not begin with a slash is its own key, and so is the name followed by
`.sum` once that ending is removed. -/
theorem targetKey_plain (K : Str) (hslash : HasPrefix K "/".toList = false)
    (hsum : HasSuffix K ".sum".toList = false) :
    TrimPrefix K "/".toList = K ∧ targetKey K = K ∧
      TrimPrefix (K ++ ".sum".toList) "/".toList = K ++ ".sum".toList ∧
      HasSuffix (K ++ ".sum".toList) ".sum".toList = true ∧
      targetKey (K ++ ".sum".toList) = K := by
  have h1 : TrimPrefix K "/".toList = K := by
    unfold TrimPrefix
    rw [hslash]
    simp
  have h2 : HasPrefix (K ++ ".sum".toList) "/".toList = false := by
    cases K with
    | nil => decide
    | cons c cs =>
      unfold HasPrefix at hslash ⊢
      simp only [decide_eq_false_iff_not] at hslash ⊢
      intro hp
      apply hslash
      obtain ⟨t, ht⟩ := hp
      simp only [String.toList, List.singleton_append, List.cons_append, List.cons.injEq] at ht
      exact ⟨cs, by rw [← ht.1]; rfl⟩
  have h3 : TrimPrefix (K ++ ".sum".toList) "/".toList = K ++ ".sum".toList := by
    unfold TrimPrefix
    rw [h2]
    simp
  have h4 : HasSuffix (K ++ ".sum".toList) ".sum".toList = true := by
    unfold HasSuffix
    exact decide_eq_true (List.suffix_append _ _)
  refine ⟨h1, ?_, h3, h4, ?_⟩
  · unfold targetKey
    rw [h1, hsum]
    simp
  · unfold targetKey
    rw [h3, h4, if_pos rfl]
    unfold TrimSuffix
    rw [h4, if_pos rfl]
    simp

/-- Claim C6, as the code has it: for every listing, `repoKeys` returns a key set with
distinct keys in which every entry carries the key under which it is stored; with a listed
name taken without one leading slash, a name `K.sum` sets the `sumKey` of the entry for `K`
and any other name `K` sets the `remotePath` of the entry for `K`, each to the name as
listed, the last such name of the listing staying: the entry under a key is exactly
`listedEntry names q`. So a listing with both `K` and `K.sum`, for a `K` that neither begins
with a slash nor ends in `.sum`, yields one entry for `K` carrying both locations, which are
`K` and `K.sum` themselves when no listed name begins with a slash. -/
theorem repoKeys_listing (remote : AzureRemote) (svc : BlobStorageClient) (pfx : Str)
    (names : List Str) (hsvc : remote.azureBlobClient = .ok svc)
    (hlist : svc.ListBlobs remote.Blob.Container
      (if remote.Blob.PathPresent then remote.Blob.Path ++ "/".toList ++ Trim pfx
        else Trim pfx) = .ok names) :
    ∃ keys, repoKeys remote pfx = .ok keys ∧
      (∀ kv ∈ keys, kv.2.key = kv.1) ∧
      (keys.map Prod.fst).Nodup ∧
      (∀ q, keys.find q = listedEntry names q) ∧
      (∀ name ∈ names, recorded keys names name) ∧
      ∀ K, K ∈ names → K ++ ".sum".toList ∈ names → HasPrefix K "/".toList = false →
        HasSuffix K ".sum".toList = false →
        ∃ e, keys.find K = some e ∧ e.key = K ∧
          e.remotePath = lastListed names K false ∧ e.sumKey = lastListed names K true ∧
          e.remotePath ∈ names ∧ TrimPrefix e.remotePath "/".toList = K ∧
          e.sumKey ∈ names ∧ TrimPrefix e.sumKey "/".toList = K ++ ".sum".toList ∧
          ((∀ name ∈ names, HasPrefix name "/".toList = false) →
            e.remotePath = K ∧ e.sumKey = K ++ ".sum".toList) := by
  have hinv := repoKeysInv_fold names [] [] ⟨by simp, by simp [azKeys.find], by simp⟩
  rw [List.nil_append] at hinv
  obtain ⟨hnd, hkey, hrec⟩ := hinv
  have hexact := repoKeys_fold_exact names [] []
    (by intro q; simp [azKeys.find, listedEntry])
  rw [List.nil_append] at hexact
  refine ⟨names.foldl repoKeysStep [], ?_, ?_, hnd, hexact, hrec, ?_⟩
  · simp only [repoKeys, hsvc, hlist]
  · intro kv hkv
    exact hkey kv.1 kv.2 (azKeys.find_of_mem _ _ _ hnd hkv)
  · intro K hK hKsum hslash hsum
    obtain ⟨t1, t2, t3, t4, t5⟩ := targetKey_plain K hslash hsum
    obtain ⟨e1, hf1, hp1⟩ := hrec K hK
    obtain ⟨e2, hf2, hp2⟩ := hrec _ hKsum
    rw [t2] at hf1
    rw [t5, hf1] at hf2
    cases hf2
    rw [t1, hsum] at hp1
    rw [t3, t4] at hp2
    simp only [Bool.false_eq_true, if_false] at hp1
    simp only [if_true] at hp2
    have hdef : e1 = listedDef names K := by
      have h1 := hexact K
      rw [hf1] at h1
      unfold listedEntry at h1
      split_ifs at h1
      · exact Option.some.inj h1
    refine ⟨e1, hf1, hkey _ _ hf1, by rw [hdef]; rfl, by rw [hdef]; rfl,
      hp1.1, hp1.2, hp2.1, hp2.2, ?_⟩
    intro hall
    have r1 := hall _ hp1.1
    have r2 := hall _ hp2.1
    refine ⟨?_, ?_⟩
    · rw [← hp1.2]
      unfold TrimPrefix
      rw [r1]
      simp
    · rw [← hp2.2]
      unfold TrimPrefix
      rw [r2]
      simp

/-- The example of the specification under C6: the listing with `repositories/ruby/latest`
and `repositories/ruby/latest.sum` gives one entry, with both locations; and of the two
content names `a` and `/a` of one key, the one listed later stays as `remotePath`. -/
theorem repoKeys_listing_witness :
    repoKeys (remoteListing rubyListing) "repositories".toList
      = .ok [("repositories/ruby/latest".toList,
          { key := "repositories/ruby/latest".toList,
            sumKey := "repositories/ruby/latest.sum".toList,
            remotePath := "repositories/ruby/latest".toList, remote := true })] ∧
    repoKeys (remoteListing ["a".toList, "/a".toList, "a.sum".toList]) []
      = .ok [("a".toList,
          { key := "a".toList, sumKey := "a.sum".toList, remotePath := "/a".toList,
            remote := true })] ∧
    repoKeys (remoteListing ["/a".toList, "a".toList, "a.sum".toList]) []
      = .ok [("a".toList,
          { key := "a".toList, sumKey := "a.sum".toList, remotePath := "a".toList,
            remote := true })] ∧
    ∃ keys, repoKeys (remoteListing rubyListing) "repositories".toList = .ok keys ∧
      (∀ kv ∈ keys, kv.2.key = kv.1) ∧
      (keys.map Prod.fst).Nodup ∧
      (∀ q, keys.find q = listedEntry rubyListing q) ∧
      (∀ name ∈ rubyListing, recorded keys rubyListing name) ∧
      ∀ K, K ∈ rubyListing → K ++ ".sum".toList ∈ rubyListing →
        HasPrefix K "/".toList = false →
        HasSuffix K ".sum".toList = false →
        ∃ e, keys.find K = some e ∧ e.key = K ∧
          e.remotePath = lastListed rubyListing K false ∧
          e.sumKey = lastListed rubyListing K true ∧
          e.remotePath ∈ rubyListing ∧ TrimPrefix e.remotePath "/".toList = K ∧
          e.sumKey ∈ rubyListing ∧ TrimPrefix e.sumKey "/".toList = K ++ ".sum".toList ∧
          ((∀ name ∈ rubyListing, HasPrefix name "/".toList = false) →
            e.remotePath = K ∧ e.sumKey = K ++ ".sum".toList) :=
  ⟨by decide, by decide, by decide,
    repoKeys_listing (remoteListing rubyListing) (serviceListing rubyListing)
      "repositories".toList rubyListing rfl rfl⟩

/-- Claim C6 fails as stated in two places. On names that begin with a slash: from the
listing `/repositories/ruby/latest`, `/repositories/ruby/latest.sum` the key set has no
entry under `/repositories/ruby/latest`; both locations are in the entry for the name
without its leading slash. And on a base key that itself ends in `.sum`: the listing
`a.sum`, `a.sum.sum` holds both `K = a.sum` and `K.sum`, yet the entry for `K` carries no
`remotePath`, because the blob `a.sum` is taken for the checksum record of `a`. -/
theorem repoKeys_leading_slash_counterexample :
    repoKeys (remoteListing
        ["/repositories/ruby/latest".toList, "/repositories/ruby/latest.sum".toList])
      "repositories".toList
      = .ok [("repositories/ruby/latest".toList,
          { key := "repositories/ruby/latest".toList,
            sumKey := "/repositories/ruby/latest.sum".toList,
            remotePath := "/repositories/ruby/latest".toList, remote := true })] ∧
    azKeys.find [("repositories/ruby/latest".toList,
          { key := "repositories/ruby/latest".toList,
            sumKey := "/repositories/ruby/latest.sum".toList,
            remotePath := "/repositories/ruby/latest".toList, remote := true })]
      "/repositories/ruby/latest".toList = none ∧
    repoKeys (remoteListing ["a.sum".toList, "a.sum.sum".toList]) []
      = .ok [("a".toList, { key := "a".toList, sumKey := "a.sum".toList, remote := true }),
          ("a.sum".toList,
            { key := "a.sum".toList, sumKey := "a.sum.sum".toList, remotePath := [],
              remote := true })] := by
  decide

/-! ## `ImageFullId` -/

/-- A result of the loop of `ImageFullId` is the identifier of one of the keys, and it
starts with the identifier asked for. -/
theorem ImageFullIdLoop_ok (id : Str) : ∀ (keys : List Str) (x : Str),
    ImageFullIdLoop keys id = .ok x →
    ∃ key ∈ keys, listedImageId key = x ∧ HasPrefix x id = true := by
  intro keys
  induction keys with
  | nil => intro x h; simp [ImageFullIdLoop] at h
  | cons key rest ih =>
    intro x h
    simp only [ImageFullIdLoop] at h
    by_cases hp : HasPrefix ((Split (TrimPrefix key "images/".toList)).headD []) id = true
    · rw [if_pos hp] at h
      cases h
      exact ⟨key, by simp, rfl, hp⟩
    · rw [if_neg hp] at h
      obtain ⟨k1, hk1, hx⟩ := ih x h
      exact ⟨k1, List.mem_cons_of_mem _ hk1, hx⟩

/-- The loop of `ImageFullId` fails, with `ErrNoSuchImage`, exactly when no key has an
identifier that starts with the identifier asked for; otherwise it returns an identifier. -/
theorem ImageFullIdLoop_cases (id : Str) : ∀ (keys : List Str),
    ((∀ key ∈ keys, HasPrefix (listedImageId key) id = false) ∧
        ImageFullIdLoop keys id = .err [] ErrNoSuchImage) ∨
      ((∃ key ∈ keys, HasPrefix (listedImageId key) id = true) ∧
        ∃ x, ImageFullIdLoop keys id = .ok x) := by
  intro keys
  induction keys with
  | nil => exact Or.inl ⟨by simp, rfl⟩
  | cons key rest ih =>
    by_cases hp : HasPrefix (listedImageId key) id = true
    · refine Or.inr ⟨⟨key, by simp, hp⟩, listedImageId key, ?_⟩
      unfold listedImageId at hp
      simp only [ImageFullIdLoop, listedImageId]
      rw [if_pos hp]
    · have hstep : ImageFullIdLoop (key :: rest) id = ImageFullIdLoop rest id := by
        unfold listedImageId at hp
        simp only [ImageFullIdLoop]
        rw [if_neg hp]
      rw [hstep]
      rcases ih with ⟨hall, herr⟩ | ⟨⟨k1, hk1, hk1p⟩, hx⟩
      · refine Or.inl ⟨?_, herr⟩
        intro k1 hk1
        rcases List.mem_cons.mp hk1 with h | h
        · rw [h]
          exact Bool.eq_false_iff.mpr hp
        · exact hall k1 h
      · exact Or.inr ⟨⟨k1, List.mem_cons_of_mem _ hk1, hk1p⟩, hx⟩

/-- Claim C8, as the code has it: over the key set that `repoKeys("/images")` returns, in
whatever order the map is ranged over, `ImageFullId` returns the image identifier (the first
segment after a leading `images/`) of a listed key that starts with the identifier asked
for; it fails, with `ErrNoSuchImage`, exactly when no listed identifier starts with it; it
returns the matching identifier when all matching keys have the same one; and when several
distinct identifiers match it still returns one of them: there is no ambiguity error. -/
theorem ImageFullId_first_match (remote : AzureRemote) (rangeOrder : azKeys → List Str)
    (id : Str) (remoteKeys : azKeys)
    (hkeys : repoKeys remote "/images".toList = .ok remoteKeys)
    (hperm : (rangeOrder remoteKeys).Perm (remoteKeys.map Prod.fst)) :
    (∀ x, ImageFullId remote rangeOrder id = .ok x →
        (∃ key ∈ remoteKeys.map Prod.fst, listedImageId key = x) ∧ HasPrefix x id = true) ∧
      ((∀ key ∈ remoteKeys.map Prod.fst, HasPrefix (listedImageId key) id = false) ↔
        ImageFullId remote rangeOrder id = .err [] ErrNoSuchImage) ∧
      (∀ x, (∃ key ∈ remoteKeys.map Prod.fst, listedImageId key = x ∧ HasPrefix x id = true) →
        (∀ key ∈ remoteKeys.map Prod.fst, HasPrefix (listedImageId key) id = true →
          listedImageId key = x) →
        ImageFullId remote rangeOrder id = .ok x) ∧
      ((∃ key ∈ remoteKeys.map Prod.fst, HasPrefix (listedImageId key) id = true) →
        ∃ x, ImageFullId remote rangeOrder id = .ok x) := by
  have hfull : ImageFullId remote rangeOrder id = ImageFullIdLoop (rangeOrder remoteKeys) id := by
    simp only [ImageFullId, hkeys]
  rw [hfull]
  have hmem : ∀ key, key ∈ rangeOrder remoteKeys ↔ key ∈ remoteKeys.map Prod.fst :=
    fun key => hperm.mem_iff
  refine ⟨?_, ?_, ?_, ?_⟩
  · intro x hx
    obtain ⟨key, hk, h1, h2⟩ := ImageFullIdLoop_ok id _ x hx
    exact ⟨⟨key, (hmem key).mp hk, h1⟩, h2⟩
  · constructor
    · intro hall
      rcases ImageFullIdLoop_cases id (rangeOrder remoteKeys) with ⟨_, herr⟩ | ⟨⟨k1, hk1, hp⟩, _⟩
      · exact herr
      · rw [hall k1 ((hmem k1).mp hk1)] at hp
        cases hp
    · intro herr
      rcases ImageFullIdLoop_cases id (rangeOrder remoteKeys) with ⟨hall, _⟩ | ⟨_, x, hx⟩
      · exact fun key hk => hall key ((hmem key).mpr hk)
      · rw [hx] at herr
        cases herr
  · intro x _ huniq
    rcases ImageFullIdLoop_cases id (rangeOrder remoteKeys) with ⟨hall, _⟩ | ⟨_, y, hy⟩
    · obtain ⟨key, hk, h1, h2⟩ := ‹∃ key ∈ remoteKeys.map Prod.fst, _›
      rw [← h1, hall key ((hmem key).mpr hk)] at h2
      cases h2
    · obtain ⟨key, hk, h1, h2⟩ := ImageFullIdLoop_ok id _ y hy
      rw [← h1] at h2
      rw [hy, ← h1, huniq key ((hmem key).mp hk) h2]
  · rintro ⟨key, hk, hp⟩
    rcases ImageFullIdLoop_cases id (rangeOrder remoteKeys) with ⟨hall, _⟩ | ⟨_, hx⟩
    · rw [hall key ((hmem key).mpr hk)] at hp
      cases hp
    · exact hx

/-- The statement of C8 on a listing with the images `abc1` and `abd2`, asked for `abc`:
the result is `abc1`. -/
theorem ImageFullId_first_match_witness :
    ImageFullId (remoteListing ["images/abc1/json".toList, "images/abd2/json".toList])
        (fun m => m.map Prod.fst) "abc".toList = .ok "abc1".toList ∧
    ((∀ x, ImageFullId (remoteListing ["images/abc1/json".toList, "images/abd2/json".toList])
          (fun m => m.map Prod.fst) "abc".toList = .ok x →
        (∃ key ∈ abcKeys.map Prod.fst, listedImageId key = x) ∧
          HasPrefix x "abc".toList = true) ∧
      ((∀ key ∈ abcKeys.map Prod.fst, HasPrefix (listedImageId key) "abc".toList = false) ↔
        ImageFullId (remoteListing ["images/abc1/json".toList, "images/abd2/json".toList])
          (fun m => m.map Prod.fst) "abc".toList = .err [] ErrNoSuchImage) ∧
      (∀ x, (∃ key ∈ abcKeys.map Prod.fst,
          listedImageId key = x ∧ HasPrefix x "abc".toList = true) →
        (∀ key ∈ abcKeys.map Prod.fst,
          HasPrefix (listedImageId key) "abc".toList = true → listedImageId key = x) →
        ImageFullId (remoteListing ["images/abc1/json".toList, "images/abd2/json".toList])
          (fun m => m.map Prod.fst) "abc".toList = .ok x) ∧
      ((∃ key ∈ abcKeys.map Prod.fst, HasPrefix (listedImageId key) "abc".toList = true) →
        ∃ x, ImageFullId (remoteListing ["images/abc1/json".toList, "images/abd2/json".toList])
          (fun m => m.map Prod.fst) "abc".toList = .ok x)) :=
  ⟨by decide,
    ImageFullId_first_match
      (remoteListing ["images/abc1/json".toList, "images/abd2/json".toList])
      (fun m => m.map Prod.fst) "abc".toList abcKeys (by decide) (List.Perm.refl _)⟩

/-- Claim C8 fails as stated when several identifiers match: with the images `abc1` and
`abc2` listed, both starting with `abc`, `ImageFullId` asked for `abc` returns `abc1` when
the map is ranged over in insertion order and `abc2` in the reverse order; in neither case
does it fail. -/
theorem ImageFullId_ambiguous_counterexample :
    listedImageId "images/abc1/json".toList = "abc1".toList ∧
      listedImageId "images/abc2/json".toList = "abc2".toList ∧
      HasPrefix "abc1".toList "abc".toList = true ∧
      HasPrefix "abc2".toList "abc".toList = true ∧
      ImageFullId (remoteListing ["images/abc1/json".toList, "images/abc2/json".toList])
        (fun m => m.map Prod.fst) "abc".toList = .ok "abc1".toList ∧
      ImageFullId (remoteListing ["images/abc1/json".toList, "images/abc2/json".toList])
        (fun m => (m.map Prod.fst).reverse) "abc".toList = .ok "abc2".toList := by
  decide

/-! ## `Push` -/

/-- What a worker reports for a tuple: an error exactly when `putFile` returned an error
that is not `io.EOF` and whose message does not contain `EOF`. -/
theorem workerResult_err (key : Str) (putFileErr : Option GoError) :
    (workerResult key putFileErr).err = none ↔
      (putFileErr = none ∨ ∃ e, putFileErr = some e ∧
        (e = GoError.EOF ∨ Contains e.Error "EOF".toList = true)) := by
  cases putFileErr with
  | none => simp [workerResult]
  | some e =>
    simp only [workerResult]
    by_cases h : e ≠ GoError.EOF ∧ ¬ Contains e.Error "EOF".toList = true
    · rw [if_pos h]
      simp only [reduceCtorEq, false_or, Option.some.injEq, exists_eq_left', false_iff]
      rintro (h1 | h1)
      · exact h.1 h1
      · exact h.2 h1
    · rw [if_neg h]
      simp only [true_iff]
      refine Or.inr ⟨e, rfl, ?_⟩
      by_cases h1 : e = GoError.EOF
      · exact Or.inl h1
      · exact Or.inr (by
          by_contra h2
          exact h ⟨h1, h2⟩)

/-- The receiving loop of `Push` returns nil only when every result it was to receive was
counted as done. -/
theorem PushReceive_ok (remote : AzureRemote) (osOpen : Str → Except GoError File) :
    ∀ (l : List azPutFileTuple) (n : Nat), l.length = n →
    PushReceive remote osOpen n l = .ok () → ∀ t ∈ l, countedAsDone remote osOpen t := by
  intro l
  induction l with
  | nil => intro n _ _ t ht; simp at ht
  | cons t rest ih =>
    intro n hlen hok
    obtain ⟨m, rfl⟩ : ∃ m, n = m + 1 := ⟨rest.length, by simpa using hlen.symm⟩
    have hlen1 : rest.length = m := by simpa using hlen
    rw [PushReceive] at hok
    cases hput : (putFile remote (osOpen t.KeyDef.fullPath) t.KeyDef).1 with
    | panic =>
      rw [hput] at hok
      cases hok
    | ok u =>
      rw [hput] at hok
      simp only [workerResult] at hok
      intro t1 ht1
      rcases List.mem_cons.mp ht1 with h | h
      · rw [h]
        exact Or.inl hput
      · exact ih m hlen1 hok t1 h
    | err u e =>
      rw [hput] at hok
      simp only at hok
      cases hw : (workerResult t.Key (some e)).err with
      | some e1 =>
        rw [hw] at hok
        cases hok
      | none =>
        rw [hw] at hok
        simp only at hok
        intro t1 ht1
        rcases List.mem_cons.mp ht1 with h | h
        · rw [h]
          rcases (workerResult_err t.Key (some e)).mp hw with h1 | ⟨e2, h1, h2⟩
          · cases h1
          · cases h1
            exact Or.inr ⟨e, hput, h2⟩
        · exact ih m hlen1 hok t1 h

/-- What `Push` does once `localKeys` has returned a non-empty key set. -/
theorem Push_unfold (remote : AzureRemote) (sha1 : List Nat → Str) (lstat : Option Node)
    (osOpen : Str → Except GoError File)
    (arrival : List azPutFileTuple → List azPutFileTuple) (imageRoot : Str)
    (keysToPush : azKeys) (hkeys : localKeys sha1 lstat imageRoot = .ok keysToPush) :
    Push remote sha1 lstat osOpen arrival imageRoot
      = if keysToPush.length = 0 then (.ok (), [])
        else (PushReceive remote osOpen keysToPush.length
          (arrival (makeAzFilesChan keysToPush)), makeAzFilesChan keysToPush) := by
  simp only [Push, hkeys]

/-- Claim C7, as the code has it: for every non-empty set of local keys and every order in
which the results of the transfers reach the receiving loop, `Push` returns nil only if
every scheduled transfer was counted as done, that is, its `putFile` returned nil or an
error that is `io.EOF` or whose message contains `EOF`; if `putFile` returns any other
error for some entry, `Push` does not return nil. -/
theorem Push_ok_only_if (remote : AzureRemote) (sha1 : List Nat → Str) (lstat : Option Node)
    (osOpen : Str → Except GoError File)
    (arrival : List azPutFileTuple → List azPutFileTuple) (imageRoot : Str)
    (keysToPush : azKeys) (hkeys : localKeys sha1 lstat imageRoot = .ok keysToPush)
    (hne : keysToPush ≠ [])
    (harr : (arrival (makeAzFilesChan keysToPush)).Perm (makeAzFilesChan keysToPush)) :
    ((Push remote sha1 lstat osOpen arrival imageRoot).1 = .ok () →
        ∀ t ∈ makeAzFilesChan keysToPush, countedAsDone remote osOpen t) ∧
      ∀ t ∈ makeAzFilesChan keysToPush, ∀ e,
        (putFile remote (osOpen t.KeyDef.fullPath) t.KeyDef).1 = .err () e →
        e ≠ GoError.EOF → Contains e.Error "EOF".toList = false →
        (Push remote sha1 lstat osOpen arrival imageRoot).1 ≠ .ok () := by
  have hlen0 : ¬ keysToPush.length = 0 := by
    intro h
    exact hne (List.length_eq_zero.mp h)
  have hlen : (arrival (makeAzFilesChan keysToPush)).length = keysToPush.length := by
    rw [harr.length_eq]
    simp [makeAzFilesChan]
  have hmain : (Push remote sha1 lstat osOpen arrival imageRoot).1 = .ok () →
      ∀ t ∈ makeAzFilesChan keysToPush, countedAsDone remote osOpen t := by
    rw [Push_unfold remote sha1 lstat osOpen arrival imageRoot keysToPush hkeys, if_neg hlen0]
    intro hok t ht
    exact PushReceive_ok remote osOpen _ _ hlen hok t (harr.mem_iff.mpr ht)
  refine ⟨hmain, ?_⟩
  intro t ht e hput hneof hncont hok
  rcases hmain hok t ht with h | ⟨e1, h1, h2⟩
  · rw [hput] at h
    cases h
  · rw [hput] at h1
    cases h1
    rcases h2 with h2 | h2
    · exact hneof h2
    · rw [hncont] at h2
      cases h2

/-- The statement of C7 on the tree of `TestLocalKeys` pushed to a service that accepts
every request: `Push` returns nil. -/
theorem Push_ok_only_if_witness :
    (Push (remoteListing []) testSha1 (some testTree) openSmall (fun q => q)
        "/tmp/x".toList).1 = .ok () ∧
    (((Push (remoteListing []) testSha1 (some testTree) openSmall (fun q => q)
          "/tmp/x".toList).1 = .ok () →
        ∀ t ∈ makeAzFilesChan testKeys, countedAsDone (remoteListing []) openSmall t) ∧
      ∀ t ∈ makeAzFilesChan testKeys, ∀ e,
        (putFile (remoteListing []) (openSmall t.KeyDef.fullPath) t.KeyDef).1 = .err () e →
        e ≠ GoError.EOF → Contains e.Error "EOF".toList = false →
        (Push (remoteListing []) testSha1 (some testTree) openSmall (fun q => q)
          "/tmp/x".toList).1 ≠ .ok ()) :=
  ⟨by decide,
    Push_ok_only_if (remoteListing []) testSha1 (some testTree) openSmall (fun q => q)
      "/tmp/x".toList testKeys (by decide) (by decide) (List.Perm.refl _)⟩

/-- Claim C7 fails as stated: with a service that refuses the first block of every file with
the error `unexpected EOF`, `putFile` returns that error for `file1` (and stages nothing
more), yet `Push` of the tree of `TestLocalKeys` returns nil. -/
theorem Push_eof_counterexample :
    (localKeys testSha1 (some testTree) "/tmp/x".toList = .ok testKeys ∧
      testKeys.find "file1".toList = some
        { key := "file1".toList, sum := "2aae6c35c94fcfb415dbe95f408b9ce91ee846ed".toList,
          fullPath := "/tmp/x/file1".toList }) ∧
    putFile ⟨⟨"c".toList, [], false⟩,
        .ok (serviceRefusing "MTA=".toList "unexpected EOF".toList)⟩
      (openSmall "/tmp/x/file1".toList)
      { key := "file1".toList, sum := "2aae6c35c94fcfb415dbe95f408b9ce91ee846ed".toList,
        fullPath := "/tmp/x/file1".toList }
      = (.err () (.other "unexpected EOF".toList),
          [Call.PutBlock "c".toList "file1".toList "MTA=".toList 11]) ∧
    (Push ⟨⟨"c".toList, [], false⟩,
        .ok (serviceRefusing "MTA=".toList "unexpected EOF".toList)⟩
      testSha1 (some testTree) openSmall (fun q => q) "/tmp/x".toList).1 = .ok () := by
  decide

/-- Claim C9, as the code has it: `Push` puts every local key on the upload queue, without
consulting the remote: whatever the two remote states (and the scheduling) of a first and a
second `Push` of one tree, the second upload set is the whole local key set again, equal to
the first. -/
theorem Push_schedules_all (remote1 remote2 : AzureRemote) (sha1 : List Nat → Str)
    (lstat : Option Node) (osOpen1 osOpen2 : Str → Except GoError File)
    (arrival1 arrival2 : List azPutFileTuple → List azPutFileTuple) (imageRoot : Str)
    (keysToPush : azKeys) (hkeys : localKeys sha1 lstat imageRoot = .ok keysToPush) :
    (Push remote2 sha1 lstat osOpen2 arrival2 imageRoot).2
        = (Push remote1 sha1 lstat osOpen1 arrival1 imageRoot).2 ∧
      (Push remote2 sha1 lstat osOpen2 arrival2 imageRoot).2 = makeAzFilesChan keysToPush ∧
      ((Push remote2 sha1 lstat osOpen2 arrival2 imageRoot).2).map (fun t => t.Key)
        = keysToPush.map Prod.fst := by
  have h : ∀ (remote : AzureRemote) (osOpen : Str → Except GoError File)
      (arrival : List azPutFileTuple → List azPutFileTuple),
      (Push remote sha1 lstat osOpen arrival imageRoot).2 = makeAzFilesChan keysToPush := by
    intro remote osOpen arrival
    rw [Push_unfold remote sha1 lstat osOpen arrival imageRoot keysToPush hkeys]
    split_ifs with h0
    · rw [List.length_eq_zero.mp h0]
      rfl
    · rfl
  refine ⟨by rw [h, h], h _ _ _, ?_⟩
  rw [h]
  simp [makeAzFilesChan]

/-- The statement of C9 on the tree of `TestLocalKeys`: a first `Push` to an empty remote
and a second one to a remote that lists the two uploaded blobs have the same upload set,
the two local keys. -/
theorem Push_schedules_all_witness :
    (Push (remoteListing ["dir/file2".toList, "file1".toList]) testSha1 (some testTree)
        openSmall (fun q => q) "/tmp/x".toList).2
        = (Push (remoteListing []) testSha1 (some testTree) openSmall (fun q => q)
          "/tmp/x".toList).2 ∧
      (Push (remoteListing ["dir/file2".toList, "file1".toList]) testSha1 (some testTree)
        openSmall (fun q => q) "/tmp/x".toList).2 = makeAzFilesChan testKeys ∧
      ((Push (remoteListing ["dir/file2".toList, "file1".toList]) testSha1 (some testTree)
        openSmall (fun q => q) "/tmp/x".toList).2).map (fun t => t.Key)
        = testKeys.map Prod.fst :=
  Push_schedules_all (remoteListing []) (remoteListing ["dir/file2".toList, "file1".toList])
    testSha1 (some testTree) openSmall openSmall (fun q => q) (fun q => q) "/tmp/x".toList
    testKeys (by decide)

/-- Claim C9 fails as stated: the first `Push` of the tree of `TestLocalKeys` succeeds, and
a second `Push` of the same tree, to a remote that now lists the two uploaded blobs, puts
the same two keys on the upload queue again. -/
theorem Push_second_run_counterexample :
    (Push (remoteListing []) testSha1 (some testTree) openSmall (fun q => q)
        "/tmp/x".toList).1 = .ok () ∧
      ((Push (remoteListing ["dir/file2".toList, "file1".toList]) testSha1 (some testTree)
        openSmall (fun q => q) "/tmp/x".toList).2).map (fun t => t.Key)
        = ["dir/file2".toList, "file1".toList] := by
  decide

/-! ## Paths -/

/-- Joining a segment in front of a non-empty list of segments. -/
theorem joinSlash_cons (s : Str) (t : List Str) (ht : t ≠ []) :
    joinSlash (s :: t) = s ++ '/' :: joinSlash t := by
  cases t with
  | nil => exact absurd rfl ht
  | cons a b => rfl

/-- Joining two non-empty lists of segments. -/
theorem joinSlash_append (a b : List Str) (ha : a ≠ []) (hb : b ≠ []) :
    joinSlash (a ++ b) = joinSlash a ++ '/' :: joinSlash b := by
  induction a with
  | nil => exact absurd rfl ha
  | cons s t ih =>
    cases t with
    | nil =>
      simp only [List.singleton_append]
      rw [joinSlash_cons s b hb]
      rfl
    | cons u v =>
      rw [List.cons_append, joinSlash_cons s _ (by simp), ih (by simp),
        joinSlash_cons s (u :: v) (by simp)]
      simp

/-- Splitting a string never gives the empty list. -/
theorem Split_ne_nil (s : Str) : Split s ≠ [] := by
  cases s with
  | nil => simp [Split]
  | cons c cs =>
    simp only [Split]
    split_ifs
    · simp
    · split <;> simp

/-- Splitting a segment without a slash that is followed by more text. -/
theorem Split_segment (s rest : Str) (hs : '/' ∉ s) :
    Split (s ++ '/' :: rest) = s :: Split rest := by
  induction s with
  | nil => simp [Split]
  | cons c cs ih =>
    have hc : c ≠ '/' := fun h => hs (by simp [h])
    have hcs : '/' ∉ cs := fun h => hs (List.mem_cons_of_mem _ h)
    rw [List.cons_append]
    simp only [Split, if_neg hc, ih hcs]

/-- Splitting a segment without a slash. -/
theorem Split_single (s : Str) (hs : '/' ∉ s) : Split s = [s] := by
  induction s with
  | nil => simp [Split]
  | cons c cs ih =>
    have hc : c ≠ '/' := fun h => hs (by simp [h])
    have hcs : '/' ∉ cs := fun h => hs (List.mem_cons_of_mem _ h)
    simp only [Split, if_neg hc, ih hcs]

/-- Splitting undoes joining, for segments without a slash. -/
theorem Split_joinSlash (segs : List Str) (hne : segs ≠ []) (hs : ∀ s ∈ segs, '/' ∉ s) :
    Split (joinSlash segs) = segs := by
  induction segs with
  | nil => exact absurd rfl hne
  | cons s t ih =>
    cases t with
    | nil => exact Split_single s (hs s (by simp))
    | cons u v =>
      rw [joinSlash_cons s (u :: v) (by simp), Split_segment s _ (hs s (by simp)),
        ih (by simp) (fun x hx => hs x (List.mem_cons_of_mem _ hx))]

/-- Cleaning keeps the plain segments and drops the empty ones. -/
theorem cleanStep_foldl (rooted : Bool) : ∀ (segs out : List Str),
    (∀ s ∈ segs, s = [] ∨ plainName s) →
    segs.foldl (cleanStep rooted) out = (segs.filter (fun s => decide (s ≠ []))).reverse ++ out := by
  intro segs
  induction segs with
  | nil => intro out _; simp
  | cons s t ih =>
    intro out h
    rw [List.foldl_cons, ih _ (fun x hx => h x (List.mem_cons_of_mem _ hx))]
    rcases h s (by simp) with h0 | hp
    · subst h0
      simp [cleanStep]
    · obtain ⟨h1, _, h3, h4⟩ := hp
      have hstep : cleanStep rooted out s = s :: out := by
        unfold cleanStep
        rw [if_neg (by
          rintro (h | h)
          · exact h1 h
          · exact h3 h), if_neg h4]
      rw [hstep, List.filter_cons_of_pos (by simpa using h1)]
      simp

/-- Plain segments survive the filter of the empty segments. -/
theorem filter_plain (comps Y : List Str) (hcomps : ∀ c ∈ comps, plainName c) :
    (comps ++ Y).filter (fun s => decide (s ≠ []))
      = comps ++ Y.filter (fun s => decide (s ≠ [])) := by
  rw [List.filter_append]
  congr 1
  rw [List.filter_eq_self]
  intro c hc
  simpa using (hcomps c hc).1

/-- A path that begins with a plain segment is not empty and does not begin with a slash. -/
theorem joinSlash_head (c : Str) (t : List Str) (hc : plainName c) :
    joinSlash (c :: t) ≠ [] ∧ (joinSlash (c :: t)).head? ≠ some '/' := by
  obtain ⟨h1, h2, _, _⟩ := hc
  cases c with
  | nil => exact absurd rfl h1
  | cons a as =>
    have ha : a ≠ '/' := fun h => h2 (by simp [h])
    cases t with
    | nil => simp [joinSlash, ha]
    | cons u v =>
      rw [joinSlash_cons _ _ (by simp)]
      simp [ha]

/-- Segments that are plain or empty have no slash. -/
theorem no_slash_of_plain (l : List Str) (hl : ∀ s ∈ l, s = [] ∨ plainName s) :
    ∀ s ∈ l, '/' ∉ s := by
  intro s hs
  rcases hl s hs with h | h
  · rw [h]; simp
  · exact h.2.1

/-- Cleaning an absolute path whose segments are plain or empty. -/
theorem Clean_rooted (rest : List Str) (hne : rest ≠ [])
    (hrest : ∀ s ∈ rest, s = [] ∨ plainName s) :
    Clean (joinSlash ([] :: rest))
      = '/' :: joinSlash (rest.filter (fun s => decide (s ≠ []))) := by
  have hall : ∀ s ∈ ([] : Str) :: rest, s = [] ∨ plainName s := by
    intro s hs
    rcases List.mem_cons.mp hs with h | h
    · exact Or.inl h
    · exact hrest s h
  have hpath : joinSlash (([] : Str) :: rest) = '/' :: joinSlash rest := by
    rw [joinSlash_cons _ _ hne]
    rfl
  unfold Clean
  rw [Split_joinSlash _ (by simp) (no_slash_of_plain _ hall), hpath]
  rw [if_neg (by simp)]
  simp only [List.head?_cons, decide_True, if_true]
  rw [cleanStep_foldl _ _ _ hall, List.filter_cons_of_neg (by simp)]
  simp [String.toList]

/-- Cleaning a relative path that begins with a plain segment and whose other segments are
plain or empty. -/
theorem Clean_relative (c : Str) (rest : List Str) (hc : plainName c)
    (hrest : ∀ s ∈ rest, s = [] ∨ plainName s) :
    Clean (joinSlash (c :: rest))
      = joinSlash (c :: rest.filter (fun s => decide (s ≠ []))) := by
  have hall : ∀ s ∈ c :: rest, s = [] ∨ plainName s := by
    intro s hs
    rcases List.mem_cons.mp hs with h | h
    · exact Or.inr (h ▸ hc)
    · exact hrest s h
  obtain ⟨hne1, hhead⟩ := joinSlash_head c rest hc
  have hrooted : decide ((joinSlash (c :: rest)).head? = some '/') = false := by
    simpa using hhead
  unfold Clean
  rw [Split_joinSlash _ (by simp) (no_slash_of_plain _ hall), if_neg hne1]
  simp only
  rw [hrooted, cleanStep_foldl _ _ _ hall, List.filter_cons_of_pos (by simpa using hc.1)]
  simp only [Bool.false_eq_true, if_false, List.append_nil, List.reverse_reverse,
    List.nil_append]
  rw [if_neg (joinSlash_head c _ hc).1]

/-- Cleaning a path whose segments are plain or empty, after the plain segments `comps` of a
root (absolute or not): the empty segments go, the rest stays. -/
theorem Clean_segments (abs : Bool) (comps Y : List Str) (hcomps : ∀ c ∈ comps, plainName c)
    (hne : comps ≠ []) (hY : ∀ s ∈ Y, s = [] ∨ plainName s) :
    Clean (joinSlash ((if abs then [] :: comps else comps) ++ Y))
      = joinSlash ((if abs then [] :: comps else comps)
          ++ Y.filter (fun s => decide (s ≠ []))) := by
  obtain ⟨c, cs, rfl⟩ : ∃ c cs, comps = c :: cs := by
    cases comps with
    | nil => exact absurd rfl hne
    | cons c cs => exact ⟨c, cs, rfl⟩
  have hall : ∀ s ∈ (c :: cs) ++ Y, s = [] ∨ plainName s := by
    intro s hs
    rcases List.mem_append.mp hs with h | h
    · exact Or.inr (hcomps s h)
    · exact hY s h
  cases abs with
  | true =>
    simp only [if_true]
    rw [List.cons_append, Clean_rooted _ (by simp) hall, filter_plain _ _ hcomps]
    rfl
  | false =>
    simp only [Bool.false_eq_true, if_false]
    have hall1 : ∀ s ∈ cs ++ Y, s = [] ∨ plainName s :=
      fun s hs => hall s (by simp only [List.cons_append]; exact List.mem_cons_of_mem _ hs)
    rw [List.cons_append, Clean_relative c _ (hcomps c (by simp)) hall1,
      filter_plain _ _ (fun x hx => hcomps x (List.mem_cons_of_mem _ hx))]
    rfl

/-- The root with its closing slash, as `localKeys` hands it to the walk. -/
theorem pathAt_slash (abs : Bool) (comps : List Str) (hne : comps ≠ []) :
    pathAt abs comps [[]] = joinSlash (rootSegs abs comps) ++ ['/'] := by
  have hS : rootSegs abs comps ≠ [] := by
    unfold rootSegs
    split_ifs <;> simp [hne]
  unfold pathAt
  rw [joinSlash_append _ _ hS (by simp)]
  rfl

/-- The path of an entry is the root, with its closing slash, followed by the relative path
of the entry. -/
theorem pathAt_eq (abs : Bool) (comps rel : List Str) (hne : comps ≠ []) (hrel : rel ≠ []) :
    pathAt abs comps rel = pathAt abs comps [[]] ++ joinSlash rel := by
  have hS : rootSegs abs comps ≠ [] := by
    unfold rootSegs
    split_ifs <;> simp [hne]
  rw [pathAt_slash abs comps hne]
  unfold pathAt
  rw [joinSlash_append _ _ hS hrel]
  simp

/-- Cleaning, for the paths below a cleaned root. -/
theorem Clean_pathAt (abs : Bool) (comps Y : List Str) (hcomps : ∀ c ∈ comps, plainName c)
    (hne : comps ≠ []) (hY : ∀ s ∈ Y, s = [] ∨ plainName s) :
    Clean (pathAt abs comps Y) = pathAt abs comps (Y.filter (fun s => decide (s ≠ []))) := by
  unfold pathAt rootSegs
  exact Clean_segments abs comps Y hcomps hne hY

/-- No path below a cleaned root is empty. -/
theorem pathAt_ne_nil (abs : Bool) (comps Y : List Str) (hcomps : ∀ c ∈ comps, plainName c)
    (hne : comps ≠ []) : pathAt abs comps Y ≠ [] := by
  obtain ⟨c, cs, rfl⟩ : ∃ c cs, comps = c :: cs := by
    cases comps with
    | nil => exact absurd rfl hne
    | cons c cs => exact ⟨c, cs, rfl⟩
  unfold pathAt rootSegs
  cases abs with
  | true =>
    simp only [if_true]
    rw [List.cons_append, joinSlash_cons _ _ (by simp)]
    simp
  | false =>
    simp only [Bool.false_eq_true, if_false]
    rw [List.cons_append]
    exact (joinSlash_head c _ (hcomps c (by simp))).1

/-- The walk's `Join` of the root, with its closing slash, and the name of an entry. -/
theorem Join_root (abs : Bool) (comps : List Str) (name : Str)
    (hcomps : ∀ c ∈ comps, plainName c) (hne : comps ≠ []) (hname : plainName name) :
    Join (pathAt abs comps [[]]) name = pathAt abs comps [name] := by
  have hS : rootSegs abs comps ≠ [] := by
    unfold rootSegs
    split_ifs <;> simp [hne]
  have hcat : pathAt abs comps [[]] ++ '/' :: name = pathAt abs comps [[], name] := by
    rw [pathAt_slash abs comps hne]
    unfold pathAt
    rw [joinSlash_append _ [[], name] hS (by simp)]
    simp [joinSlash]
  unfold Join
  rw [if_pos (pathAt_ne_nil abs comps _ hcomps hne), hcat,
    Clean_pathAt abs comps _ hcomps hne (by
      intro s hs
      simp only [List.mem_cons, List.mem_singleton, List.not_mem_nil, or_false] at hs
      rcases hs with h | h
      · exact Or.inl h
      · exact Or.inr (h ▸ hname))]
  rw [List.filter_cons_of_neg (by simp), List.filter_cons_of_pos (by simpa using hname.1)]
  rfl

/-- The walk's `Join` of the path of a directory below the root and the name of an entry. -/
theorem Join_pathAt (abs : Bool) (comps rel : List Str) (name : Str)
    (hcomps : ∀ c ∈ comps, plainName c) (hne : comps ≠ [])
    (hplain : ∀ r ∈ rel, plainName r) (hname : plainName name) :
    Join (pathAt abs comps rel) name = pathAt abs comps (rel ++ [name]) := by
  have hS : rootSegs abs comps ≠ [] := by
    unfold rootSegs
    split_ifs <;> simp [hne]
  have hall : ∀ s ∈ rel ++ [name], plainName s := by
    intro s hs
    rcases List.mem_append.mp hs with h | h
    · exact hplain s h
    · rw [List.mem_singleton.mp h]; exact hname
  have hcat : pathAt abs comps rel ++ '/' :: name = pathAt abs comps (rel ++ [name]) := by
    unfold pathAt
    rw [← List.append_assoc, joinSlash_append _ [name] (by simp [hS]) (by simp)]
    rfl
  unfold Join
  rw [if_pos (pathAt_ne_nil abs comps _ hcomps hne), hcat,
    Clean_pathAt abs comps _ hcomps hne (fun s hs => Or.inr (hall s hs))]
  congr 1
  rw [List.filter_eq_self]
  intro s hs
  simpa using (hall s hs).1

/-- Removing the root, with its closing slash, from the path of an entry leaves the relative
path. -/
theorem TrimPrefix_pathAt (abs : Bool) (comps rel : List Str) (hne : comps ≠ [])
    (hrel : rel ≠ []) :
    TrimPrefix (pathAt abs comps rel) (pathAt abs comps [[]]) = joinSlash rel := by
  rw [pathAt_eq abs comps rel hne hrel]
  unfold TrimPrefix HasPrefix
  rw [decide_eq_true (List.prefix_append _ _)]
  simp

/-! ## The walk of `localKeys` -/

/-- Writing two lists of entries one after the other. -/
theorem azKeys.setAll_append (k : azKeys) (a b : List (Str × azKeyDef)) :
    k.setAll (a ++ b) = (k.setAll a).setAll b := by
  unfold azKeys.setAll
  rw [List.foldl_append]

mutual
/-- The walk of `localKeys` over a readable entry reached through the segments `rel` writes
one entry for each regular file of it and ends without error. -/
theorem walk_readable (sha1 : List Nat → Str) (abs : Bool) (comps : List Str)
    (hcomps : ∀ c ∈ comps, plainName c) (hne : comps ≠ []) :
    ∀ (c : Node) (rel : List Str) (keys : azKeys), plainName c.name → c.readable →
    (∀ r ∈ rel, plainName r) →
    walk (localKeysWalkFn sha1 (pathAt abs comps [[]])) (pathAt abs comps (rel ++ [c.name])) c
        keys
      = (keys.setAll (c.files.map (fun f => walkEntry sha1 abs comps (rel ++ f.1, f.2))), none)
  | .file name content, rel, keys, _, hread, _ => by
    obtain ⟨bytes, rfl⟩ : ∃ bytes, content = some bytes := by
      cases content with
      | none => simp [Node.readable] at hread
      | some bytes => exact ⟨bytes, rfl⟩
    simp only [walk, localKeysWalkFn, Node.IsDir, Sha1File, Node.name, Node.files,
      Option.getD_some, List.map_cons, List.map_nil, azKeys.setAll, List.foldl_cons,
      List.foldl_nil, walkEntry, Bool.false_eq_true, if_false]
    rw [TrimPrefix_pathAt abs comps _ hne (by simp)]
  | .dir name children, rel, keys, hname, hread, hrel => by
    have hrel1 : ∀ r ∈ rel ++ [name], plainName r := by
      intro r hr
      rcases List.mem_append.mp hr with h | h
      · exact hrel r h
      · rw [List.mem_singleton.mp h]; exact hname
    have hch := walkChildren_readable sha1 abs comps hcomps hne children (rel ++ [name])
      (pathAt abs comps (rel ++ [name])) keys hread hrel1
      (fun n hn => Join_pathAt abs comps (rel ++ [name]) n hcomps hne hrel1 hn)
    simp only [walk, localKeysWalkFn, Node.IsDir, if_true, Node.name, Node.files, List.map_map]
    rw [hch]
    congr 2
    apply List.map_congr_left
    intro f _
    simp [Function.comp]
/-- The walk of `localKeys` over the entries of a readable directory. -/
theorem walkChildren_readable (sha1 : List Nat → Str) (abs : Bool) (comps : List Str)
    (hcomps : ∀ c ∈ comps, plainName c) (hne : comps ≠ []) :
    ∀ (cs : List Node) (rel : List Str) (dirPath : Str) (keys : azKeys), readableList cs →
    (∀ r ∈ rel, plainName r) →
    (∀ name, plainName name → Join dirPath name = pathAt abs comps (rel ++ [name])) →
    walkChildren (localKeysWalkFn sha1 (pathAt abs comps [[]])) dirPath cs keys
      = (keys.setAll ((filesOfList cs).map (fun f => walkEntry sha1 abs comps (rel ++ f.1, f.2))),
          none)
  | [], rel, dirPath, keys, _, _, _ => by
    simp [walkChildren, filesOfList, azKeys.setAll]
  | c :: cs, rel, dirPath, keys, hread, hrel, hjoin => by
    obtain ⟨hname, _, hc, hcs⟩ := hread
    have h1 := walk_readable sha1 abs comps hcomps hne c rel keys hname hc hrel
    have h2 := walkChildren_readable sha1 abs comps hcomps hne cs rel dirPath
      (keys.setAll (c.files.map (fun f => walkEntry sha1 abs comps (rel ++ f.1, f.2))))
      hcs hrel hjoin
    simp only [walkChildren, hjoin c.name hname, h1, h2, filesOfList, List.map_append,
      azKeys.setAll_append]
end

/-- Writing under a key that the map does not have appends the entry. -/
theorem azKeys.set_of_not_mem (k : azKeys) (key : Str) (v : azKeyDef)
    (h : key ∉ k.map Prod.fst) : k.set key v = k ++ [(key, v)] := by
  induction k with
  | nil => rfl
  | cons kv rest ih =>
    obtain ⟨a, w⟩ := kv
    have ha : a ≠ key := fun h1 => h (by simp [h1])
    have hrest : key ∉ rest.map Prod.fst := fun h1 => h (by simp [h1])
    simp only [azKeys.set, if_neg ha, ih hrest, List.cons_append]

/-- Writing entries with new, distinct keys appends them. -/
theorem azKeys.setAll_eq_append : ∀ (entries : List (Str × azKeyDef)) (k : azKeys),
    ((k ++ entries).map Prod.fst).Nodup → k.setAll entries = k ++ entries := by
  intro entries
  induction entries with
  | nil => intro k _; simp [azKeys.setAll]
  | cons e es ih =>
    intro k hnd
    have hnot : e.1 ∉ k.map Prod.fst := by
      rw [List.map_append, List.map_cons] at hnd
      intro hmem
      have := (List.nodup_append.mp hnd).2.2
      exact this hmem (List.mem_cons_self _ _)
    have hstep : k.setAll (e :: es) = (k.set e.1 e.2).setAll es := rfl
    rw [hstep, azKeys.set_of_not_mem k e.1 e.2 hnot, ih _ (by simpa using hnd)]
    simp

mutual
/-- The paths of the regular files of a readable entry begin with the name of the entry,
consist of plain segments, and are distinct. -/
theorem files_paths : ∀ (c : Node), plainName c.name → c.readable →
    (∀ f ∈ c.files, (∃ t, f.1 = c.name :: t) ∧ ∀ s ∈ f.1, plainName s) ∧
      (c.files.map Prod.fst).Nodup
  | .file name content, hname, _ => by
    simp only [Node.files, Node.name, List.mem_singleton, List.map_cons, List.map_nil,
      List.nodup_singleton, and_true]
    intro f hf
    subst hf
    exact ⟨⟨[], rfl⟩, by simpa using hname⟩
  | .dir name children, hname, hread => by
    obtain ⟨h1, h2⟩ := filesOfList_paths children hread
    simp only [Node.files, Node.name, List.map_map]
    refine ⟨?_, ?_⟩
    · intro f hf
      obtain ⟨g, hg, rfl⟩ := List.mem_map.mp hf
      refine ⟨⟨g.1, rfl⟩, ?_⟩
      intro s hs
      rcases List.mem_cons.mp hs with h | h
      · rw [h]; exact hname
      · exact (h1 g hg).2 s h
    · have : (Prod.fst ∘ fun f : List Str × List Nat => (name :: f.1, f.2))
          = (fun p => name :: p) ∘ Prod.fst := rfl
      rw [this, ← List.map_map]
      exact List.Nodup.map (fun a b hab => by simpa using hab) h2
/-- The paths of the regular files below the entries of a readable directory begin with the
name of one of the entries, consist of plain segments, and are distinct. -/
theorem filesOfList_paths : ∀ (cs : List Node), readableList cs →
    (∀ f ∈ filesOfList cs, (∃ n ∈ cs.map Node.name, ∃ t, f.1 = n :: t) ∧
        ∀ s ∈ f.1, plainName s) ∧
      ((filesOfList cs).map Prod.fst).Nodup
  | [], _ => by simp [filesOfList]
  | c :: cs, hread => by
    obtain ⟨hname, hnot, hc, hcs⟩ := hread
    obtain ⟨h1, h2⟩ := files_paths c hname hc
    obtain ⟨h3, h4⟩ := filesOfList_paths cs hcs
    simp only [filesOfList, List.map_append]
    refine ⟨?_, ?_⟩
    · intro f hf
      rcases List.mem_append.mp hf with h | h
      · exact ⟨⟨c.name, by simp, (h1 f h).1⟩, (h1 f h).2⟩
      · obtain ⟨⟨n, hn, ht⟩, hp⟩ := h3 f h
        exact ⟨⟨n, List.mem_cons_of_mem _ hn, ht⟩, hp⟩
    · refine List.Nodup.append h2 h4 ?_
      intro p hp1 hp2
      obtain ⟨f, hf, rfl⟩ := List.mem_map.mp hp1
      obtain ⟨g, hg, hfg⟩ := List.mem_map.mp hp2
      obtain ⟨t, ht⟩ := (h1 f hf).1
      obtain ⟨⟨n, hn, t1, ht1⟩, _⟩ := h3 g hg
      rw [ht, ht1] at hfg
      have : n = c.name := (List.cons.inj hfg).1
      exact hnot (this ▸ hn)
end

/-- The keys that the walk writes for the files below a readable directory are distinct. -/
theorem walk_keys_nodup (cs : List Node) (hread : readableList cs) :
    ((filesOfList cs).map (fun f => joinSlash f.1)).Nodup := by
  obtain ⟨h1, h2⟩ := filesOfList_paths cs hread
  have h3 : ((filesOfList cs).map (fun f => joinSlash f.1))
      = ((filesOfList cs).map Prod.fst).map joinSlash := by
    rw [List.map_map]
    rfl
  rw [h3]
  refine List.Nodup.map_on ?_ h2
  intro p hp q hq hpq
  obtain ⟨f, hf, rfl⟩ := List.mem_map.mp hp
  obtain ⟨g, hg, rfl⟩ := List.mem_map.mp hq
  have hfne : f.1 ≠ [] := by
    obtain ⟨⟨_, _, t, ht⟩, _⟩ := h1 f hf
    rw [ht]; simp
  have hgne : g.1 ≠ [] := by
    obtain ⟨⟨_, _, t, ht⟩, _⟩ := h1 g hg
    rw [ht]; simp
  have e1 := Split_joinSlash f.1 hfne (fun s hs => ((h1 f hf).2 s hs).2.1)
  have e2 := Split_joinSlash g.1 hgne (fun s hs => ((h1 g hg).2 s hs).2.1)
  rw [← e1, ← e2, hpq]

/-- A cleaned root is the join of its segments, followed by a slash when `slash` is set. -/
theorem cleanRoot_eq (abs : Bool) (comps : List Str) (slash : Bool) (hne : comps ≠ []) :
    cleanRoot abs comps slash
      = joinSlash (rootSegs abs comps) ++ (if slash then ['/'] else []) := by
  unfold cleanRoot rootSegs
  cases abs with
  | true =>
    simp only [if_true]
    rw [joinSlash_cons _ _ hne]
    rfl
  | false => rfl

/-- A path that ends with a plain segment ends with a character that is not a slash. -/
theorem joinSlash_getLast (segs : List Str) (last : Str) (hlast : plainName last) :
    ∃ l, (joinSlash (segs ++ [last])).getLast? = some l ∧ l ≠ '/' := by
  induction segs with
  | nil =>
    obtain ⟨h1, h2, _, _⟩ := hlast
    refine ⟨last.getLast h1, ?_, ?_⟩
    · simp only [List.nil_append, joinSlash]
      exact List.getLast?_eq_getLast _ h1
    · intro h
      exact h2 (h ▸ List.getLast_mem h1)
  | cons s t ih =>
    obtain ⟨l, hl, hne⟩ := ih
    refine ⟨l, ?_, hne⟩
    rw [List.cons_append, joinSlash_cons _ _ (by simp)]
    have hne1 : joinSlash (t ++ [last]) ≠ [] := by
      intro h
      rw [h] at hl
      simp at hl
    rw [List.getLast?_append, List.getLast?_cons, hl]
    rfl

/-- The root that `localKeys` hands to the walk, for a cleaned root given with or without
its closing slash: the root with the closing slash. -/
theorem cleanRoot_walk_root (abs : Bool) (comps : List Str) (slash : Bool)
    (hcomps : ∀ c ∈ comps, plainName c) (hne : comps ≠ []) :
    ∃ last, (cleanRoot abs comps slash).getLast? = some last ∧
      (if last ≠ '/' then cleanRoot abs comps slash ++ "/".toList
        else cleanRoot abs comps slash) = pathAt abs comps [[]] := by
  rw [cleanRoot_eq abs comps slash hne, pathAt_slash abs comps hne]
  cases slash with
  | true =>
    refine ⟨'/', by simp, ?_⟩
    simp
  | false =>
    obtain ⟨front, last, hlast⟩ : ∃ front last, rootSegs abs comps = front ++ [last] ∧
        plainName last := by
      refine ⟨(rootSegs abs comps).dropLast, comps.getLast hne, ?_, hcomps _ (List.getLast_mem hne)⟩
      have hS : rootSegs abs comps ≠ [] := by
        unfold rootSegs
        split_ifs <;> simp [hne]
      have hl : (rootSegs abs comps).getLast hS = comps.getLast hne := by
        unfold rootSegs
        cases abs with
        | true => simp [List.getLast_cons hne]
        | false => simp
      rw [← hl]
      exact (List.dropLast_append_getLast hS).symm
    obtain ⟨l, hl, hne1⟩ := joinSlash_getLast front last hlast.2
    refine ⟨l, ?_, ?_⟩
    · rw [hlast.1]
      simpa using hl
    · rw [if_pos hne1]
      simp [String.toList]

/-- Joining a cleaned root, given with or without its closing slash, and the relative path
of an entry gives the path of the entry. -/
theorem Join_cleanRoot (abs : Bool) (comps : List Str) (slash : Bool) (rel : List Str)
    (hcomps : ∀ c ∈ comps, plainName c) (hne : comps ≠ []) (hrel : rel ≠ [])
    (hplain : ∀ r ∈ rel, plainName r) :
    Join (cleanRoot abs comps slash) (joinSlash rel) = pathAt abs comps rel := by
  have hS : rootSegs abs comps ≠ [] := by
    unfold rootSegs
    split_ifs <;> simp [hne]
  have hfilter : rel.filter (fun s => decide (s ≠ [])) = rel := by
    rw [List.filter_eq_self]
    intro s hs
    simpa using (hplain s hs).1
  have hroot : cleanRoot abs comps slash ≠ [] := by
    rw [cleanRoot_eq abs comps slash hne]
    have := pathAt_ne_nil abs comps [] hcomps hne
    unfold pathAt at this
    rw [List.append_nil] at this
    simp [this]
  unfold Join
  rw [if_pos hroot, cleanRoot_eq abs comps slash hne]
  cases slash with
  | true =>
    have hcat : joinSlash (rootSegs abs comps) ++ (if true = true then ['/'] else [])
        ++ '/' :: joinSlash rel = pathAt abs comps ([] :: rel) := by
      unfold pathAt
      rw [joinSlash_append _ ([] :: rel) hS (by simp), joinSlash_cons _ _ hrel]
      simp
    rw [hcat, Clean_pathAt abs comps _ hcomps hne (by
      intro s hs
      rcases List.mem_cons.mp hs with h | h
      · exact Or.inl h
      · exact Or.inr (hplain s h)), List.filter_cons_of_neg (by simp), hfilter]
  | false =>
    have hcat : joinSlash (rootSegs abs comps) ++ (if false = true then ['/'] else [])
        ++ '/' :: joinSlash rel = pathAt abs comps rel := by
      unfold pathAt
      rw [joinSlash_append _ rel hS hrel]
      simp
    rw [hcat, Clean_pathAt abs comps _ hcomps hne (fun s hs => Or.inr (hplain s hs)), hfilter]

/-- The roots for which `localKeys` does what C10 says: for every root path in cleaned form
(one or more plain segments, absolute or relative), given with or without a closing slash,
and every readable file tree under it, `localKeys` returns exactly the entries of the
regular files of the tree, one for each and none for a directory, under distinct keys; each
is stored under the path of the file relative to the root (which has no leading slash), with
that key as `key`, the root joined with the key as `fullPath`, and the digest of the bytes
of the file as `sum`. -/
theorem localKeys_clean_root (sha1 : List Nat → Str) (abs : Bool) (comps : List Str)
    (slash : Bool) (name : Str) (children : List Node)
    (hcomps : ∀ c ∈ comps, plainName c) (hne : comps ≠ []) (hread : readableList children) :
    localKeys sha1 (some (.dir name children)) (cleanRoot abs comps slash)
        = .ok ((filesOfList children).map (localEntry sha1 (cleanRoot abs comps slash))) ∧
      (((filesOfList children).map (localEntry sha1 (cleanRoot abs comps slash))).map
        Prod.fst).Nodup ∧
      ∀ f ∈ filesOfList children, HasPrefix (joinSlash f.1) "/".toList = false := by
  obtain ⟨hpaths, _⟩ := filesOfList_paths children hread
  have hentries : (filesOfList children).map (localEntry sha1 (cleanRoot abs comps slash))
      = (filesOfList children).map (fun f => walkEntry sha1 abs comps ([] ++ f.1, f.2)) := by
    apply List.map_congr_left
    intro f hf
    have hfne : f.1 ≠ [] := by
      obtain ⟨⟨_, _, t, ht⟩, _⟩ := hpaths f hf
      rw [ht]; simp
    simp only [localEntry, walkEntry, List.nil_append]
    rw [Join_cleanRoot abs comps slash f.1 hcomps hne hfne (hpaths f hf).2]
  have hkeys : (((filesOfList children).map
      (fun f => walkEntry sha1 abs comps ([] ++ f.1, f.2))).map Prod.fst).Nodup := by
    rw [List.map_map]
    exact walk_keys_nodup children hread
  refine ⟨?_, by rw [hentries]; exact hkeys, ?_⟩
  · obtain ⟨last, hlast, hroot⟩ := cleanRoot_walk_root abs comps slash hcomps hne
    unfold localKeys
    rw [hlast]
    simp only
    rw [hroot]
    simp only [walk, localKeysWalkFn, Node.IsDir, if_true]
    rw [walkChildren_readable sha1 abs comps hcomps hne children [] _ [] hread (by simp)
      (fun n hn => Join_root abs comps n hcomps hne hn)]
    simp only
    rw [azKeys.setAll_eq_append _ _ (by simpa using hkeys), hentries]
    simp
  · intro f hf
    obtain ⟨⟨n, _, t, ht⟩, hplain⟩ := hpaths f hf
    have hn : plainName n := hplain n (by rw [ht]; simp)
    have hhead := (joinSlash_head n t hn).2
    rw [ht]
    unfold HasPrefix
    rw [decide_eq_false_iff_not]
    rintro ⟨u, hu⟩
    apply hhead
    rw [← hu]
    rfl

/-- The test `TestLocalKeys`: under the root `/tmp/x`, with or without a closing slash, the
tree with `file1` and `dir/file2` gives the keys `dir/file2` and `file1`, with the digests
that the test expects. -/
theorem localKeys_clean_root_witness :
    cleanRoot true ["tmp".toList, "x".toList] false = "/tmp/x".toList ∧
    localKeys testSha1 (some testTree) "/tmp/x".toList = .ok testKeys ∧
    localKeys testSha1 (some testTree) "/tmp/x/".toList = .ok testKeys ∧
    (localKeys testSha1 (some (.dir "dogestry-test".toList testChildren))
          (cleanRoot true ["tmp".toList, "x".toList] false)
        = .ok ((filesOfList testChildren).map
            (localEntry testSha1 (cleanRoot true ["tmp".toList, "x".toList] false))) ∧
      (((filesOfList testChildren).map
          (localEntry testSha1 (cleanRoot true ["tmp".toList, "x".toList] false))).map
        Prod.fst).Nodup ∧
      ∀ f ∈ filesOfList testChildren, HasPrefix (joinSlash f.1) "/".toList = false) :=
  ⟨by decide, by decide, by decide,
    localKeys_clean_root testSha1 true ["tmp".toList, "x".toList] false "dogestry-test".toList
      testChildren
      (by
        intro c hc
        simp only [List.mem_cons, List.mem_singleton, List.not_mem_nil, or_false] at hc
        rcases hc with rfl | rfl <;> (unfold plainName; decide))
      (by simp)
      (by
        simp only [testChildren, readableList, Node.readable, Node.name, plainName]
        decide)⟩

/-- Claim C10, the code at a root that is not in cleaned form: under the root `./work` the
walk visits `work/file1` and `work/dir/file2` (the cleaned paths), from which the root
`./work/` is not removed, so the keys are `work/dir/file2` and `work/file1` and there is no
entry under `file1`; under the root `/tmp/x//` the keys are the full paths, and no entry is
stored under `file1` either. -/
theorem localKeys_unclean_root :
    localKeys testSha1 (some testTree) "./work".toList = .ok workKeys ∧
      workKeys.map Prod.fst = ["work/dir/file2".toList, "work/file1".toList] ∧
      workKeys.find "file1".toList = none ∧
      localKeys testSha1 (some testTree) "/tmp/x//".toList = .ok slashKeys ∧
      slashKeys.map Prod.fst = ["/tmp/x/dir/file2".toList, "/tmp/x/file1".toList] ∧
      slashKeys.find "file1".toList = none := by
  decide

/-- Other roots at which the keys of the tree of `TestLocalKeys` are the relative paths:
`.`, `..`, `../work` and `/`. -/
theorem localKeys_other_roots :
    (∀ root ∈ [".".toList, "..".toList, "../work".toList, "/".toList],
      ∃ keys, localKeys testSha1 (some testTree) root = .ok keys ∧
        keys.map Prod.fst = ["dir/file2".toList, "file1".toList] ∧
        keys.map (fun kv => kv.2.key) = ["dir/file2".toList, "file1".toList] ∧
        keys.map (fun kv => kv.2.fullPath)
          = [Join root "dir/file2".toList, Join root "file1".toList]) := by
  intro root hroot
  simp only [List.mem_cons, List.mem_singleton, List.not_mem_nil, or_false] at hroot
  rcases hroot with rfl | rfl | rfl | rfl
  · exact ⟨[("dir/file2".toList,
        { key := "dir/file2".toList, sum := "dd6944c43fabd03cf643fe0daf625759dbdea808".toList,
          fullPath := "dir/file2".toList }),
      ("file1".toList,
        { key := "file1".toList, sum := "2aae6c35c94fcfb415dbe95f408b9ce91ee846ed".toList,
          fullPath := "file1".toList })], by decide, by decide, by decide, by decide⟩
  · exact ⟨[("dir/file2".toList,
        { key := "dir/file2".toList, sum := "dd6944c43fabd03cf643fe0daf625759dbdea808".toList,
          fullPath := "../dir/file2".toList }),
      ("file1".toList,
        { key := "file1".toList, sum := "2aae6c35c94fcfb415dbe95f408b9ce91ee846ed".toList,
          fullPath := "../file1".toList })], by decide, by decide, by decide, by decide⟩
  · exact ⟨[("dir/file2".toList,
        { key := "dir/file2".toList, sum := "dd6944c43fabd03cf643fe0daf625759dbdea808".toList,
          fullPath := "../work/dir/file2".toList }),
      ("file1".toList,
        { key := "file1".toList, sum := "2aae6c35c94fcfb415dbe95f408b9ce91ee846ed".toList,
          fullPath := "../work/file1".toList })], by decide, by decide, by decide, by decide⟩
  · exact ⟨[("dir/file2".toList,
        { key := "dir/file2".toList, sum := "dd6944c43fabd03cf643fe0daf625759dbdea808".toList,
          fullPath := "/dir/file2".toList }),
      ("file1".toList,
        { key := "file1".toList, sum := "2aae6c35c94fcfb415dbe95f408b9ce91ee846ed".toList,
          fullPath := "/file1".toList })], by decide, by decide, by decide, by decide⟩

/-! ## The bounds of `firstBlockId` and of the staging loop -/

/-- The first identifier is greater than the block count and at most ten times the block
count. -/
theorem firstBlockId_bounds (size : Nat) :
    (firstBlockId size).2 < (firstBlockId size).1 ∧
      (firstBlockId size).1 ≤ 10 * (firstBlockId size).2 := by
  obtain ⟨d, h1, _, h3, h4⟩ := firstBlockId_spec size
  rw [h1]
  refine ⟨h4, ?_⟩
  rw [pow_succ]
  omega

/-- Claim C12, the code at a file of zero bytes (and at any file smaller than 4,000,000
bytes): the block count is 1 and the first identifier is 10, which is not smaller than ten
times the block count; the lower bound holds. -/
theorem firstBlockId_upper_bound_reached :
    firstBlockId 0 = (10, 1) ∧
      (firstBlockId 0).2 < (firstBlockId 0).1 ∧
      ¬ ((firstBlockId 0).1 < 10 * (firstBlockId 0).2) ∧
      (firstBlockId 0).1 = 10 * (firstBlockId 0).2 ∧
      firstBlockId 3999999 = (10, 1) ∧ firstBlockId 36000000 = (100, 10) := by
  decide

/-- The reads of a regular file: each returns between 1 and 4,000,000 bytes and a nil error,
and there are at most as many as `firstBlockId` counts blocks. -/
theorem regularReads_spec (size : Nat) :
    (regularReads size).length ≤ (firstBlockId size).2 ∧
      ∀ r ∈ regularReads size, 0 < r.1 ∧ r.1 ≤ 4000000 ∧ r.2 = none := by
  obtain ⟨_, _, h2, _, _⟩ := firstBlockId_spec size
  refine ⟨?_, ?_⟩
  · rw [h2]
    unfold regularReads maxBlockSize
    rw [List.length_map, List.length_range]
    omega
  · intro r hr
    unfold regularReads maxBlockSize at hr
    obtain ⟨k, hk, rfl⟩ := List.mem_map.mp hr
    rw [List.mem_range] at hk
    refine ⟨?_, ?_, rfl⟩
    · simp only
      have : k * 4000000 < size := by omega
      omega
    · simp only
      omega

/-- While the reads still to come fit in the rest of the block slice, the staging loop
never writes out of range, and it sends at most one request for each read. -/
theorem putAzureBlocksLoop_in_bounds (svc : BlobStorageClient) (blob : BlobSpec) (dst : Str)
    (firstId : Nat) : ∀ (reads : List (Nat × Option GoError)) (id : Nat) (blocks : List Block)
      (err : Option GoError) (log : List Call), firstId ≤ id →
    (id - firstId) + reads.length ≤ blocks.length →
    (putAzureBlocksLoop svc blob dst firstId reads id blocks err log).1 ≠ .indexOutOfRange ∧
      (putAzureBlocksLoop svc blob dst firstId reads id blocks err log).2.length
        ≤ log.length + reads.length := by
  intro reads
  induction reads with
  | nil =>
    intro id blocks err log _ _
    simp [putAzureBlocksLoop]
  | cons r rest ih =>
    obtain ⟨n, e⟩ := r
    intro id blocks err log hid hfit
    rw [List.length_cons] at hfit
    rw [putAzureBlocksLoop]
    by_cases hc : n > 0 ∧ (e = none ∨ e = some GoError.EOF)
    · rw [if_pos hc]
      cases hput : svc.PutBlock blob.Container dst (strId id) n with
      | some putErr =>
        simp only [List.length_append, List.length_cons, List.length_nil]
        exact ⟨by simp, by omega⟩
      | none =>
        simp only
        rw [if_pos (by omega)]
        have := ih (id + 1) (blocks.set (id - firstId) ⟨strId id, BlockStatusUncommitted⟩) e
          (log ++ [Call.PutBlock blob.Container dst (strId id) n]) (by omega)
          (by rw [List.length_set]; omega)
        refine ⟨this.1, ?_⟩
        have h2 := this.2
        simp only [List.length_append, List.length_cons, List.length_nil] at h2
        rw [List.length_cons]
        omega
    · rw [if_neg hc]
      exact ⟨by simp, by simp⟩

/-- The result of `putAzureBlocks` in terms of its staging loop: it panics only when the
loop writes out of range, and its requests are those of the loop, followed by at most one
`CreateBlockBlob`. -/
theorem putAzureBlocks_shape (svc : BlobStorageClient) (f : File) (blob : BlobSpec)
    (dst : Str) :
    ((putAzureBlocks svc f blob dst).1 = .panic →
        (putAzureBlocksLoop svc blob dst (firstBlockId f.size).1 f.reads
          (firstBlockId f.size).1 (List.replicate (firstBlockId f.size).2 ⟨[], []⟩) none []).1
          = .indexOutOfRange) ∧
      ((putAzureBlocks svc f blob dst).2
          = (putAzureBlocksLoop svc blob dst (firstBlockId f.size).1 f.reads
            (firstBlockId f.size).1 (List.replicate (firstBlockId f.size).2 ⟨[], []⟩) none []).2 ∨
        (putAzureBlocks svc f blob dst).2
          = (putAzureBlocksLoop svc blob dst (firstBlockId f.size).1 f.reads
            (firstBlockId f.size).1 (List.replicate (firstBlockId f.size).2 ⟨[], []⟩) none []).2
            ++ [Call.CreateBlockBlob blob.Container dst]) := by
  unfold putAzureBlocks
  simp only
  rcases hL : putAzureBlocksLoop svc blob dst (firstBlockId f.size).1 f.reads
    (firstBlockId f.size).1 (List.replicate (firstBlockId f.size).2 ⟨[], []⟩) none []
    with ⟨exit, log⟩
  rcases exit with ⟨id, blocks, err⟩ | e | _
  · rcases err with _ | _ | text <;> simp only
    · split_ifs
      · cases hcr : svc.CreateBlockBlob blob.Container dst <;> simp
      · simp
    · split_ifs
      · cases hcr : svc.CreateBlockBlob blob.Container dst <;> simp
      · simp
    · simp
  · simp
  · simp

/-- Claim C14: for every file size, when the file is read in chunks of
`min(remaining, 4000000)` bytes, there are at most `numBlocks` chunks, so whatever the
service answers the staging loop of `putAzureBlocks` never writes `blocks[id-firstId]` out
of range (`putAzureBlocks` does not panic), and at most `numBlocks` blocks are staged. -/
theorem putAzureBlocks_in_bounds (svc : BlobStorageClient) (blob : BlobSpec) (dst : Str)
    (size : Nat) :
    (regularReads size).length ≤ (firstBlockId size).2 ∧
      (∀ r ∈ regularReads size, 0 < r.1 ∧ r.1 ≤ 4000000 ∧ r.2 = none) ∧
      (putAzureBlocksLoop svc blob dst (firstBlockId size).1 (regularReads size)
        (firstBlockId size).1 (List.replicate (firstBlockId size).2 ⟨[], []⟩) none []).1
        ≠ .indexOutOfRange ∧
      (putAzureBlocks svc (regularFile size) blob dst).1 ≠ .panic ∧
      (putAzureBlocks svc (regularFile size) blob dst).2.countP Call.isPutBlock
        ≤ (firstBlockId size).2 := by
  obtain ⟨hlen, hreads⟩ := regularReads_spec size
  have hloop := putAzureBlocksLoop_in_bounds svc blob dst (firstBlockId size).1
    (regularReads size) (firstBlockId size).1 (List.replicate (firstBlockId size).2 ⟨[], []⟩)
    none [] le_rfl (by rw [List.length_replicate]; omega)
  obtain ⟨hpanic, hlog⟩ := putAzureBlocks_shape svc (regularFile size) blob dst
  refine ⟨hlen, hreads, hloop.1, fun h => hloop.1 (hpanic h), ?_⟩
  have hcount : (putAzureBlocks svc (regularFile size) blob dst).2.countP Call.isPutBlock
      ≤ (putAzureBlocksLoop svc blob dst (firstBlockId size).1 (regularReads size)
        (firstBlockId size).1 (List.replicate (firstBlockId size).2 ⟨[], []⟩) none []).2.length := by
    rcases hlog with h | h
    · rw [h]
      exact List.countP_le_length _
    · rw [h, List.countP_append]
      have : List.countP Call.isPutBlock [Call.CreateBlockBlob blob.Container dst] = 0 := rfl
      rw [this, Nat.add_zero]
      exact List.countP_le_length _
  have h2 := hloop.2
  simp only [List.length_nil, Nat.zero_add] at h2
  omega

/-! ## `getFiles` and `PullImageId` -/

/-- Claim C11 fails as stated: at the example of the doc comment of `getFiles` (no sub-path,
`dst` `/tmp/rego/123`, `rootKey` `images/456`, the key `images/456/json`, every step of the
download succeeding) the blob is written to `/tmp/rego/123/json`, and nothing is written to
`/tmp/rego/123/456/json`. -/
theorem getFiles_doc_example :
    TrimPrefix (TrimPrefix "images/456/json".toList "images/456".toList) "/".toList
        = "json".toList ∧
      Join "/tmp/rego/123".toList "json".toList = "/tmp/rego/123/json".toList ∧
      getFiles (remoteListing []) pullAll "/tmp/rego/123".toList "images/456".toList
          [{ key := "images/456/json".toList, remotePath := "images/456/json".toList,
             remote := true }]
        = (.ok (), [PullCall.GetBlob "c".toList "images/456/json".toList,
            PullCall.MkdirAll "/tmp/rego/123".toList,
            PullCall.Create "/tmp/rego/123/json".toList,
            PullCall.Copy "/tmp/rego/123/json".toList [49, 50, 51]]) ∧
      PullCall.Create "/tmp/rego/123/456/json".toList ∉
        (getFiles (remoteListing []) pullAll "/tmp/rego/123".toList "images/456".toList
          [{ key := "images/456/json".toList, remotePath := "images/456/json".toList,
             remote := true }]).2 := by
  decide

/-- The only local file that `getFile` creates is the one at `dst`. -/
theorem getFile_creates (remote : AzureRemote) (io : PullIO) (dst : Str) (key : azKeyDef)
    (p : Str) (h : PullCall.Create p ∈ (getFile remote io dst key).2) : p = dst := by
  unfold getFile at h
  cases hsvc : remote.azureBlobClient with
  | error e => simp [hsvc] at h
  | ok svc =>
    simp only [hsvc] at h
    by_cases hrem : key.remote = false
    · simp [hrem] at h
    · rw [if_neg hrem] at h
      cases hget : io.GetBlob remote.Blob.Container key.remotePath with
      | error e => simp [hget] at h
      | ok rdr =>
        simp only [hget] at h
        cases hmk : io.MkdirAll (Dir dst) with
        | some e => simp [hmk] at h
        | none =>
          simp only [hmk] at h
          cases hcr : io.Create dst with
          | some e => simpa [hcr] using h
          | none =>
            simp only [hcr] at h
            cases hcp : io.Copy dst rdr with
            | some e => simpa [hcp] using h
            | none => simpa [hcp] using h

/-- Claim C11, as the code has it: with no sub-path configured, `getFiles` called with `dst`
`/tmp/rego/123`, `rootKey` `images/456` and a key `images/456/json` downloads that key to
the local path `/tmp/rego/123/json`, the key relative to `rootKey` joined to `dst`: whatever
the service and the file system answer no other local file is created, and when every step
succeeds the blob is requested, `/tmp/rego/123` is made, and the bytes of the blob are
written to `/tmp/rego/123/json`. -/
theorem getFiles_relative_to_rootKey (remote : AzureRemote) (io : PullIO) (key : azKeyDef)
    (hpath : remote.Blob.PathPresent = false) (hkey : key.key = "images/456/json".toList) :
    (∀ p, PullCall.Create p
        ∈ (getFiles remote io "/tmp/rego/123".toList "images/456".toList [key]).2 →
        p = "/tmp/rego/123/json".toList) ∧
      ∀ svc content, remote.azureBlobClient = .ok svc → key.remote = true →
        io.GetBlob remote.Blob.Container key.remotePath = .ok content →
        io.MkdirAll "/tmp/rego/123".toList = none →
        io.Create "/tmp/rego/123/json".toList = none →
        io.Copy "/tmp/rego/123/json".toList content = none →
        getFiles remote io "/tmp/rego/123".toList "images/456".toList [key]
          = (.ok (), [PullCall.GetBlob remote.Blob.Container key.remotePath,
              PullCall.MkdirAll "/tmp/rego/123".toList,
              PullCall.Create "/tmp/rego/123/json".toList,
              PullCall.Copy "/tmp/rego/123/json".toList content]) := by
  have hrel : Join "/tmp/rego/123".toList
      (TrimPrefix (TrimPrefix key.key "images/456".toList) "/".toList)
      = "/tmp/rego/123/json".toList := by
    rw [hkey]
    decide
  have hdir : Dir "/tmp/rego/123/json".toList = "/tmp/rego/123".toList := by decide
  have hlog : (getFiles remote io "/tmp/rego/123".toList "images/456".toList [key]).2
      = (getFile remote io "/tmp/rego/123/json".toList key).2 := by
    simp only [getFiles, hpath, Bool.false_eq_true, if_false, getFilesLoop, hrel]
    rcases hgf : getFile remote io "/tmp/rego/123/json".toList key with ⟨o, l⟩
    rcases o with u | ⟨u, e⟩ | _ <;> simp
  refine ⟨?_, ?_⟩
  · intro p hp
    rw [hlog] at hp
    exact getFile_creates remote io _ key p hp
  · intro svc content hsvc hrem hget hmk hcr hcp
    have hgf : getFile remote io "/tmp/rego/123/json".toList key
        = (.ok (), [PullCall.GetBlob remote.Blob.Container key.remotePath,
            PullCall.MkdirAll "/tmp/rego/123".toList,
            PullCall.Create "/tmp/rego/123/json".toList,
            PullCall.Copy "/tmp/rego/123/json".toList content]) := by
      simp only [getFile, hsvc, hrem, hget, hdir, hmk, hcr, hcp]
      simp
    simp only [getFiles, hpath, Bool.false_eq_true, if_false, getFilesLoop, hrel, hgf]
    simp

/-- The example of the doc comment of `getFiles`, with a service that accepts every step:
the blob `images/456/json` is written to `/tmp/rego/123/json`. -/
theorem getFiles_relative_to_rootKey_witness :
    (∀ p, PullCall.Create p
        ∈ (getFiles (remoteListing []) pullAll "/tmp/rego/123".toList "images/456".toList
          [testKey]).2 →
        p = "/tmp/rego/123/json".toList) ∧
      ∀ svc content, (remoteListing []).azureBlobClient = .ok svc → testKey.remote = true →
        pullAll.GetBlob (remoteListing []).Blob.Container testKey.remotePath = .ok content →
        pullAll.MkdirAll "/tmp/rego/123".toList = none →
        pullAll.Create "/tmp/rego/123/json".toList = none →
        pullAll.Copy "/tmp/rego/123/json".toList content = none →
        getFiles (remoteListing []) pullAll "/tmp/rego/123".toList "images/456".toList [testKey]
          = (.ok (), [PullCall.GetBlob (remoteListing []).Blob.Container testKey.remotePath,
              PullCall.MkdirAll "/tmp/rego/123".toList,
              PullCall.Create "/tmp/rego/123/json".toList,
              PullCall.Copy "/tmp/rego/123/json".toList content]) :=
  getFiles_relative_to_rootKey (remoteListing []) pullAll testKey rfl rfl

/-- Claim C13, the code at a blob spec with the sub-path `sub`: the object
`sub/images/456/json` pulled for the image `456` into `/tmp/rego/123` is written to
`sub/tmp/rego/123/sub/images/456/json`, not to `/tmp/rego/123/json`; without a sub-path the
object `images/456/json` is written to `/tmp/rego/123/json`. -/
theorem PullImageId_sub_path :
    PullImageId (remoteSubPath ["sub/images/456/json".toList]) pullAll
        (fun m => m.map Prod.snd) "456".toList "/tmp/rego/123".toList
      = (.ok (), [PullCall.GetBlob "c".toList "sub/images/456/json".toList,
          PullCall.MkdirAll "sub/tmp/rego/123/sub/images/456".toList,
          PullCall.Create "sub/tmp/rego/123/sub/images/456/json".toList,
          PullCall.Copy "sub/tmp/rego/123/sub/images/456/json".toList [49, 50, 51]]) ∧
    PullImageId (remoteListing ["images/456/json".toList]) pullAll
        (fun m => m.map Prod.snd) "456".toList "/tmp/rego/123".toList
      = (.ok (), [PullCall.GetBlob "c".toList "images/456/json".toList,
          PullCall.MkdirAll "/tmp/rego/123".toList,
          PullCall.Create "/tmp/rego/123/json".toList,
          PullCall.Copy "/tmp/rego/123/json".toList [49, 50, 51]]) := by
  decide

/-- Every entry that the loop of `repoKeys` makes or updates has its `remote` pointer set. -/
theorem repoKeys_fold_remote : ∀ (names : List Str) (k : azKeys),
    (∀ q e, k.find q = some e → e.remote = true) →
    ∀ q e, (names.foldl repoKeysStep k).find q = some e → e.remote = true := by
  intro names
  induction names with
  | nil => intro k h; simpa using h
  | cons n rest ih =>
    intro k h
    rw [List.foldl_cons]
    apply ih
    intro q e hq
    obtain ⟨e0, he0, hfind, hother, _⟩ := repoKeysStep_spec k n
    have he0r : e0.remote = true := by
      rcases he0 with h1 | ⟨_, h1⟩
      · exact h _ _ h1
      · rw [h1]
    by_cases hqn : q = targetKey n
    · subst hqn
      rw [hfind] at hq
      cases hq
      split_ifs <;> exact he0r
    · rw [hother q hqn] at hq
      exact h q e hq

/-- A download of which every step succeeds: the blob is requested, the directory made, the
local file created at `dst` and the bytes copied into it. -/
theorem getFile_ok (remote : AzureRemote) (svc : BlobStorageClient) (io : PullIO) (dst : Str)
    (key : azKeyDef) (content : List Nat) (hsvc : remote.azureBlobClient = .ok svc)
    (hremote : key.remote = true)
    (hget : io.GetBlob remote.Blob.Container key.remotePath = .ok content)
    (hmk : ∀ p, io.MkdirAll p = none) (hcr : ∀ p, io.Create p = none)
    (hcp : ∀ p c, io.Copy p c = none) :
    getFile remote io dst key
      = (.ok (), [PullCall.GetBlob remote.Blob.Container key.remotePath,
          PullCall.MkdirAll (Dir dst), PullCall.Create dst, PullCall.Copy dst content]) := by
  simp [getFile, hsvc, hremote, hget, hmk, hcr, hcp]

/-- When every step of every download succeeds, the loop of `getFiles` meets no error, and
for each key it creates the file at `dst` joined with the key taken relative to `rootKey`. -/
theorem getFilesLoop_ok (remote : AzureRemote) (svc : BlobStorageClient) (io : PullIO)
    (dst rootKey : Str) (hsvc : remote.azureBlobClient = .ok svc)
    (hget : ∀ c n, ∃ content, io.GetBlob c n = .ok content)
    (hmk : ∀ p, io.MkdirAll p = none) (hcr : ∀ p, io.Create p = none)
    (hcp : ∀ p c, io.Copy p c = none) :
    ∀ (keys : List azKeyDef) (errMap : List (Str × GoError)) (log : List PullCall),
    (∀ key ∈ keys, key.remote = true) →
    (getFilesLoop remote io dst rootKey keys errMap log).1 = some errMap ∧
      ∀ key ∈ keys, ∃ content, io.GetBlob remote.Blob.Container key.remotePath = .ok content ∧
        PullCall.Create (Join dst (TrimPrefix (TrimPrefix key.key rootKey) "/".toList))
          ∈ (getFilesLoop remote io dst rootKey keys errMap log).2 ∧
        PullCall.Copy (Join dst (TrimPrefix (TrimPrefix key.key rootKey) "/".toList)) content
          ∈ (getFilesLoop remote io dst rootKey keys errMap log).2 := by
  have hmono : ∀ (keys : List azKeyDef) (errMap : List (Str × GoError)) (log : List PullCall),
      ∀ c ∈ log, c ∈ (getFilesLoop remote io dst rootKey keys errMap log).2 := by
    intro keys
    induction keys with
    | nil => intro errMap log c hc; simpa [getFilesLoop] using hc
    | cons key rest ih =>
      intro errMap log c hc
      simp only [getFilesLoop]
      rcases hgf : getFile remote io
        (Join dst (TrimPrefix (TrimPrefix key.key rootKey) "/".toList)) key with ⟨o, l⟩
      rcases o with u | ⟨u, e⟩ | _ <;> simp only
      · exact ih _ _ c (List.mem_append_left _ hc)
      · exact ih _ _ c (List.mem_append_left _ hc)
      · exact List.mem_append_left _ hc
  intro keys
  induction keys with
  | nil => intro errMap log _; simp [getFilesLoop]
  | cons key rest ih =>
    intro errMap log hrem
    obtain ⟨content, hcontent⟩ := hget remote.Blob.Container key.remotePath
    have hgf := getFile_ok remote svc io
      (Join dst (TrimPrefix (TrimPrefix key.key rootKey) "/".toList)) key content hsvc
      (hrem key (by simp)) hcontent hmk hcr hcp
    simp only [getFilesLoop, hgf]
    obtain ⟨h1, h2⟩ := ih errMap
      (log ++ [PullCall.GetBlob remote.Blob.Container key.remotePath,
        PullCall.MkdirAll (Dir (Join dst (TrimPrefix (TrimPrefix key.key rootKey) "/".toList))),
        PullCall.Create (Join dst (TrimPrefix (TrimPrefix key.key rootKey) "/".toList)),
        PullCall.Copy (Join dst (TrimPrefix (TrimPrefix key.key rootKey) "/".toList)) content])
      (fun k hk => hrem k (List.mem_cons_of_mem _ hk))
    refine ⟨h1, ?_⟩
    intro k hk
    rcases List.mem_cons.mp hk with h | h
    · rw [h]
      exact ⟨content, hcontent, hmono _ _ _ _ (by simp), hmono _ _ _ _ (by simp)⟩
    · exact h2 k h

/-- The key `rootKey/X` taken relative to `rootKey`, without its leading slash, is `X`. -/
theorem TrimPrefix_rootKey (rootKey X : Str) :
    TrimPrefix (TrimPrefix (rootKey ++ "/".toList ++ X) rootKey) "/".toList = X := by
  have h1 : TrimPrefix (rootKey ++ "/".toList ++ X) rootKey = "/".toList ++ X := by
    unfold TrimPrefix HasPrefix
    rw [List.append_assoc, decide_eq_true (List.prefix_append _ _)]
    simp
  rw [h1]
  unfold TrimPrefix HasPrefix
  rw [decide_eq_true (List.prefix_append _ _)]
  simp

/-- The path without a sub-path, which does what C13 says: for a blob spec without a
sub-path, whatever the listing and the order in which the key set is ranged over, when every
step of every download succeeds `PullImageId(id, dst)` returns nil and, for every listed
object `images/{id}/X` whose name does not end in `.sum`, it requests that object (under
its listed name) and writes its bytes to the local file `filepath.Join(dst, X)`. -/
theorem PullImageId_without_sub_path (remote : AzureRemote) (svc : BlobStorageClient)
    (io : PullIO) (rangeOrder : azKeys → List azKeyDef) (id dst : Str) (names : List Str)
    (hsvc : remote.azureBlobClient = .ok svc) (hpath : remote.Blob.PathPresent = false)
    (hlist : svc.ListBlobs remote.Blob.Container
      (Trim ("/".toList ++ ("images/".toList ++ id))) = .ok names)
    (hperm : (rangeOrder (names.foldl repoKeysStep [])).Perm
      ((names.foldl repoKeysStep []).map Prod.snd))
    (hget : ∀ c n, ∃ content, io.GetBlob c n = .ok content)
    (hmk : ∀ p, io.MkdirAll p = none) (hcr : ∀ p, io.Create p = none)
    (hcp : ∀ p c, io.Copy p c = none) :
    (PullImageId remote io rangeOrder id dst).1 = .ok () ∧
      ∀ X, "images/".toList ++ id ++ "/".toList ++ X ∈ names →
        HasSuffix ("images/".toList ++ id ++ "/".toList ++ X) ".sum".toList = false →
        ∃ listed content, listed ∈ names ∧
          TrimPrefix listed "/".toList = "images/".toList ++ id ++ "/".toList ++ X ∧
          io.GetBlob remote.Blob.Container listed = .ok content ∧
          PullCall.Create (Join dst X) ∈ (PullImageId remote io rangeOrder id dst).2 ∧
          PullCall.Copy (Join dst X) content ∈ (PullImageId remote io rangeOrder id dst).2 := by
  have hkeys : repoKeys remote ("/".toList ++ ("images/".toList ++ id))
      = .ok (names.foldl repoKeysStep []) := by
    simp only [repoKeys, hsvc, hpath, Bool.false_eq_true, if_false, hlist]
  obtain ⟨hnd, hkey, hrec⟩ := repoKeysInv_fold names [] []
    ⟨by simp, by simp [azKeys.find], by simp⟩
  rw [List.nil_append] at hrec
  have hrem : ∀ key ∈ rangeOrder (names.foldl repoKeysStep []), key.remote = true := by
    intro key hk
    obtain ⟨kv, hkv, rfl⟩ := List.mem_map.mp (hperm.mem_iff.mp hk)
    exact repoKeys_fold_remote names [] (by simp [azKeys.find]) kv.1 kv.2
      (azKeys.find_of_mem _ _ _ hnd hkv)
  obtain ⟨hloop1, hloop2⟩ := getFilesLoop_ok remote svc io dst ("images/".toList ++ id) hsvc
    hget hmk hcr hcp (rangeOrder (names.foldl repoKeysStep [])) [] [] hrem
  have hpull : PullImageId remote io rangeOrder id dst
      = (.ok (), (getFilesLoop remote io dst ("images/".toList ++ id)
          (rangeOrder (names.foldl repoKeysStep [])) [] []).2) := by
    simp only [PullImageId, hkeys, getFiles, hpath, Bool.false_eq_true, if_false]
    rcases hL : getFilesLoop remote io dst ("images/".toList ++ id)
      (rangeOrder (names.foldl repoKeysStep [])) [] [] with ⟨r, log⟩
    rw [hL] at hloop1
    simp only at hloop1
    subst hloop1
    rfl
  rw [hpull]
  refine ⟨rfl, ?_⟩
  intro X hX hsum
  have hslash : HasPrefix ("images/".toList ++ id ++ "/".toList ++ X) "/".toList = false := by
    unfold HasPrefix
    rw [decide_eq_false_iff_not]
    rintro ⟨t, ht⟩
    simp [String.toList] at ht
  obtain ⟨t1, t2, _, _, _⟩ := targetKey_plain _ hslash hsum
  obtain ⟨e, hfe, hprop⟩ := hrec _ hX
  rw [t2] at hfe
  rw [t1, hsum] at hprop
  simp only [Bool.false_eq_true, if_false] at hprop
  have hek : e.key = "images/".toList ++ id ++ "/".toList ++ X := hkey _ _ hfe
  have hmem : e ∈ rangeOrder (names.foldl repoKeysStep []) :=
    hperm.mem_iff.mpr (List.mem_map.mpr ⟨_, azKeys.mem_of_find _ _ _ hfe, rfl⟩)
  obtain ⟨content, hc, hcreate, hcopy⟩ := hloop2 e hmem
  rw [hek, TrimPrefix_rootKey] at hcreate hcopy
  exact ⟨e.remotePath, content, hprop.1, hprop.2, hc, hcreate, hcopy⟩

end Dogestry
